import Mathlib

/-!
Verification of the book-rag backend against its natural-language specification.

Shallow embedding conventions:
* Python `str` values are embedded as Lean `String`; `str.strip()` is `pyStrip`
  (drop leading and trailing whitespace), Python `<` on strings is `pyStrLt`
  (lexicographic by code point).
* Python `float` score arithmetic is idealized as exact rational arithmetic (`ℚ`).
* Python's stable `sorted`/`list.sort` is embedded as a stable insertion sort
  (`stableSort`); every sort in the sources is applied with a key that is a
  strict weak (here in fact total) order, proved transitive and asymmetric.
* External libraries (spacy sentencization, the FAISS index, BM25 raw scoring,
  the LLM responses) enter the model as explicit oracle parameters; everything
  downstream of them is translated from the repository sources.
-/

/-! ## Python string primitives -/

/-- Model of Python `str.strip()` on the character list: drop whitespace from
both ends. -/
def trimChars (l : List Char) : List Char :=
  ((l.dropWhile Char.isWhitespace).reverse.dropWhile Char.isWhitespace).reverse

/-- Model of Python `str.strip()`. -/
def pyStrip (s : String) : String :=
  String.mk (trimChars s.toList)

/-- Lexicographic comparison of character lists by code point. -/
def strLtChars : List Char → List Char → Bool
  | [], [] => false
  | [], _ :: _ => true
  | _ :: _, [] => false
  | a :: as, b :: bs =>
    if a.toNat < b.toNat then true
    else if b.toNat < a.toNat then false
    else strLtChars as bs

/-- Model of Python `<` on strings: lexicographic by code point. -/
def pyStrLt (a b : String) : Prop := strLtChars a.toList b.toList = true

instance (a b : String) : Decidable (pyStrLt a b) := instDecidableEqBool _ _

theorem strLtChars_asymm :
    ∀ a b : List Char, strLtChars a b = true → strLtChars b a = false := by
  intro a
  induction a with
  | nil => intro b h; cases b <;> simp [strLtChars] at *
  | cons x xs ih =>
      intro b h
      cases b with
      | nil => simp [strLtChars] at h
      | cons y ys =>
          show (if y.toNat < x.toNat then true
            else if x.toNat < y.toNat then false else strLtChars ys xs) = false
          rw [show strLtChars (x :: xs) (y :: ys) =
            (if x.toNat < y.toNat then true
              else if y.toNat < x.toNat then false else strLtChars xs ys) from rfl] at h
          by_cases h1 : x.toNat < y.toNat
          · have h2 : ¬ y.toNat < x.toNat := by omega
            rw [if_neg h2, if_pos h1]
          · by_cases h2 : y.toNat < x.toNat
            · rw [if_neg h1, if_pos h2] at h
              exact absurd h (by simp)
            · rw [if_neg h1, if_neg h2] at h
              rw [if_neg h2, if_neg h1]
              exact ih ys h

theorem strLtChars_trans :
    ∀ a b c : List Char, strLtChars a b = true → strLtChars b c = true →
      strLtChars a c = true := by
  intro a
  induction a with
  | nil =>
      intro b c hab hbc
      cases b with
      | nil => simp [strLtChars] at hab
      | cons y ys =>
          cases c with
          | nil => simp [strLtChars] at hbc
          | cons z zs => simp [strLtChars]
  | cons x xs ih =>
      intro b c hab hbc
      cases b with
      | nil => simp [strLtChars] at hab
      | cons y ys =>
          cases c with
          | nil => simp [strLtChars] at hbc
          | cons z zs =>
              rw [show strLtChars (x :: xs) (y :: ys) =
                (if x.toNat < y.toNat then true
                  else if y.toNat < x.toNat then false else strLtChars xs ys) from rfl] at hab
              rw [show strLtChars (y :: ys) (z :: zs) =
                (if y.toNat < z.toNat then true
                  else if z.toNat < y.toNat then false else strLtChars ys zs) from rfl] at hbc
              show (if x.toNat < z.toNat then true
                else if z.toNat < x.toNat then false else strLtChars xs zs) = true
              by_cases hxy : x.toNat < y.toNat
              · by_cases hyz : y.toNat < z.toNat
                · rw [if_pos (by omega : x.toNat < z.toNat)]
                · by_cases hzy : z.toNat < y.toNat
                  · rw [if_neg hyz, if_pos hzy] at hbc
                    exact absurd hbc (by simp)
                  · rw [if_pos (by omega : x.toNat < z.toNat)]
              · by_cases hyx : y.toNat < x.toNat
                · rw [if_neg hxy, if_pos hyx] at hab
                  exact absurd hab (by simp)
                · by_cases hyz : y.toNat < z.toNat
                  · rw [if_pos (by omega : x.toNat < z.toNat)]
                  · by_cases hzy : z.toNat < y.toNat
                    · rw [if_neg hyz, if_pos hzy] at hbc
                      exact absurd hbc (by simp)
                    · rw [if_neg hxy, if_neg hyx] at hab
                      rw [if_neg hyz, if_neg hzy] at hbc
                      rw [if_neg (by omega : ¬ x.toNat < z.toNat),
                        if_neg (by omega : ¬ z.toNat < x.toNat)]
                      exact ih ys zs hab hbc

theorem pyStrLt_asymm (a b : String) : pyStrLt a b → ¬ pyStrLt b a := by
  intro h h2
  have := strLtChars_asymm a.toList b.toList h
  rw [pyStrLt, this] at h2
  exact Bool.false_ne_true h2

theorem pyStrLt_trans (a b c : String) : pyStrLt a b → pyStrLt b c → pyStrLt a c :=
  strLtChars_trans a.toList b.toList c.toList

/-! ## Stable sort (model of Python `sorted` / `list.sort`) -/

/-- Insert `x` into `l`, placing it before the first element strictly greater
than it; inserting elements left to right therefore keeps the original
relative order of key-equal elements, exactly like Python's stable sort. -/
def insertSorted (lt : α → α → Prop) [DecidableRel lt] (x : α) : List α → List α
  | [] => [x]
  | y :: ys => if lt x y then x :: y :: ys else y :: insertSorted lt x ys

/-- Stable insertion sort: model of Python `sorted(l, key=...)` where `lt`
compares sort keys strictly. -/
def stableSort (lt : α → α → Prop) [DecidableRel lt] (l : List α) : List α :=
  l.foldl (fun acc x => insertSorted lt x acc) []

theorem insertSorted_perm (lt : α → α → Prop) [DecidableRel lt] (x : α) :
    ∀ l : List α, (insertSorted lt x l).Perm (x :: l) := by
  intro l
  induction l with
  | nil => simp [insertSorted]
  | cons y ys ih =>
      simp only [insertSorted]
      by_cases h : lt x y
      · simp [h]
      · simp only [h, if_neg, ite_false]
        exact (ih.cons y).trans (List.Perm.swap x y ys)

theorem mem_insertSorted (lt : α → α → Prop) [DecidableRel lt] (x a : α)
    (l : List α) : a ∈ insertSorted lt x l ↔ a = x ∨ a ∈ l := by
  have := (insertSorted_perm lt x l).mem_iff (a := a)
  simpa using this

theorem stableSort_aux_perm (lt : α → α → Prop) [DecidableRel lt] :
    ∀ (l acc : List α), (l.foldl (fun acc x => insertSorted lt x acc) acc).Perm (acc ++ l) := by
  intro l
  induction l with
  | nil => simp
  | cons x xs ih =>
      intro acc
      simp only [List.foldl_cons]
      refine (ih (insertSorted lt x acc)).trans ?_
      refine (((insertSorted_perm lt x acc).append_right xs).trans ?_)
      have hmid : (acc ++ x :: xs).Perm (x :: (acc ++ xs)) := List.perm_middle
      simpa using hmid.symm

theorem stableSort_perm (lt : α → α → Prop) [DecidableRel lt] (l : List α) :
    (stableSort lt l).Perm l := by
  simpa [stableSort] using stableSort_aux_perm lt l []

theorem insertSorted_pairwise (lt : α → α → Prop) [DecidableRel lt]
    (asymm : ∀ a b, lt a b → ¬ lt b a)
    (trans : ∀ a b c, lt a b → lt b c → lt a c)
    (x : α) (l : List α) (hl : l.Pairwise (fun a b => ¬ lt b a)) :
    (insertSorted lt x l).Pairwise (fun a b => ¬ lt b a) := by
  induction l with
  | nil => simp [insertSorted]
  | cons y ys ih =>
      rcases List.pairwise_cons.mp hl with ⟨hy, hys⟩
      simp only [insertSorted]
      by_cases h : lt x y
      · simp only [h, if_pos, ite_true]
        refine List.pairwise_cons.mpr ⟨?_, hl⟩
        intro z hz
        rcases List.mem_cons.mp hz with rfl | hz2
        · exact asymm x z h
        · intro hzx
          exact hy z hz2 (trans z x y hzx h)
      · simp only [h, if_neg, ite_false]
        refine List.pairwise_cons.mpr ⟨?_, ih hys⟩
        intro z hz
        rcases (mem_insertSorted lt x z ys).mp hz with rfl | hz2
        · exact h
        · exact hy z hz2

theorem stableSort_pairwise (lt : α → α → Prop) [DecidableRel lt]
    (asymm : ∀ a b, lt a b → ¬ lt b a)
    (trans : ∀ a b c, lt a b → lt b c → lt a c)
    (l : List α) :
    (stableSort lt l).Pairwise (fun a b => ¬ lt b a) := by
  suffices h : ∀ (l acc : List α), acc.Pairwise (fun a b => ¬ lt b a) →
      (l.foldl (fun acc x => insertSorted lt x acc) acc).Pairwise (fun a b => ¬ lt b a) by
    exact h l [] (by simp)
  intro l
  induction l with
  | nil => intro acc hacc; simpa using hacc
  | cons x xs ih =>
      intro acc hacc
      simp only [List.foldl_cons]
      exact ih _ (insertSorted_pairwise lt asymm trans x acc hacc)

theorem length_stableSort (lt : α → α → Prop) [DecidableRel lt] (l : List α) :
    (stableSort lt l).length = l.length :=
  (stableSort_perm lt l).length_eq

/-! ## Guardrails (`backend/app/guardrails.py`) -/

/-- The strict fallback answer `STRICT_NO_MENTION`. -/
def STRICT_NO_MENTION : String := "The document does not mention this."

/-- Result record of `enforce_strict_rag_answer`. -/
structure GuardrailResult where
  ok : Bool
  answer : String
  reason : Option String
deriving DecidableEq

/-- Numeric value of a digit run, as Python `int(...)` computes it. -/
def digitsToNat (ds : List Char) : ℕ :=
  ds.foldl (fun a c => a * 10 + (c.toNat - 48)) 0

/-- All numbers matched by the regex `\[(\d+)\]` via `finditer` (leftmost,
non-overlapping), as a left-to-right scan. The state is `none` outside a
candidate match and `some ds` after an opening bracket with digit run `ds`.
When a candidate fails, the regex engine resumes one character after the
opening bracket; the skipped characters are digits and hence can never start
a match, so only the failing character itself must be re-examined (it may be
a fresh opening bracket). -/
def citScan (digits : Option (List Char)) : List Char → List ℕ
  | [] => []
  | c :: rest =>
      match digits with
      | none => if c = '[' then citScan (some []) rest else citScan none rest
      | some ds =>
          if c.isDigit then citScan (some (ds ++ [c])) rest
          else if c = ']' then
            if ds.isEmpty then citScan none rest
            else digitsToNat ds :: citScan none rest
          else if c = '[' then citScan (some []) rest
          else citScan none rest

/-- Entry point of the regex scan. -/
def findCitations (l : List Char) : List ℕ := citScan none l

/-- Keep the first occurrence of every number, in order (the `ordered unique`
loop of `extract_citation_numbers`). -/
def dedupFirst (seen : List ℕ) : List ℕ → List ℕ
  | [] => []
  | n :: rest => if n ∈ seen then dedupFirst seen rest else n :: dedupFirst (n :: seen) rest

/-- Model of `extract_citation_numbers`. -/
def extract_citation_numbers (text : String) : List ℕ :=
  dedupFirst [] (findCitations text.toList)

/-- Model of `enforce_strict_rag_answer`. -/
def enforce_strict_rag_answer (answer : String) (context_size : ℤ)
    (require_citations : Bool) : GuardrailResult :=
  let raw := pyStrip answer
  if raw = "" then ⟨false, STRICT_NO_MENTION, some "empty_answer"⟩
  else if raw = STRICT_NO_MENTION then ⟨true, raw, none⟩
  else
    let nums := extract_citation_numbers raw
    if require_citations = true ∧ nums = [] then
      ⟨false, STRICT_NO_MENTION, some "missing_citations"⟩
    else if ∃ n ∈ nums, (n : ℤ) < 1 ∨ (n : ℤ) > context_size then
      ⟨false, STRICT_NO_MENTION, some "out_of_range_citations"⟩
    else ⟨true, raw, none⟩

/-- C1: full case analysis of `enforce_strict_rag_answer` — empty trimmed
answer fails with `empty_answer`; the exact sentinel passes; with citations
required and none present it fails with `missing_citations`; any extracted
citation outside `1..context_size` fails with `out_of_range_citations`;
otherwise the trimmed answer passes unchanged. -/
theorem enforce_strict_rag_answer_spec (answer : String) (n : ℤ) (rc : Bool)
    (hn : 0 ≤ n) :
    (pyStrip answer = "" →
      enforce_strict_rag_answer answer n rc =
        ⟨false, STRICT_NO_MENTION, some "empty_answer"⟩) ∧
    (pyStrip answer = STRICT_NO_MENTION →
      enforce_strict_rag_answer answer n rc = ⟨true, STRICT_NO_MENTION, none⟩) ∧
    (pyStrip answer ≠ "" → pyStrip answer ≠ STRICT_NO_MENTION →
      rc = true → extract_citation_numbers (pyStrip answer) = [] →
      enforce_strict_rag_answer answer n rc =
        ⟨false, STRICT_NO_MENTION, some "missing_citations"⟩) ∧
    (pyStrip answer ≠ "" → pyStrip answer ≠ STRICT_NO_MENTION →
      ¬ (rc = true ∧ extract_citation_numbers (pyStrip answer) = []) →
      (∃ m ∈ extract_citation_numbers (pyStrip answer), (m : ℤ) < 1 ∨ (m : ℤ) > n) →
      enforce_strict_rag_answer answer n rc =
        ⟨false, STRICT_NO_MENTION, some "out_of_range_citations"⟩) ∧
    (pyStrip answer ≠ "" → pyStrip answer ≠ STRICT_NO_MENTION →
      ¬ (rc = true ∧ extract_citation_numbers (pyStrip answer) = []) →
      (∀ m ∈ extract_citation_numbers (pyStrip answer), 1 ≤ (m : ℤ) ∧ (m : ℤ) ≤ n) →
      enforce_strict_rag_answer answer n rc = ⟨true, pyStrip answer, none⟩) := by
  refine ⟨?_, ?_, ?_, ?_, ?_⟩
  · intro h
    simp only [enforce_strict_rag_answer]
    rw [if_pos h]
  · intro h
    have hne : pyStrip answer ≠ "" := by
      rw [h]; decide
    simp only [enforce_strict_rag_answer]
    rw [if_neg hne, if_pos h, h]
  · intro h1 h2 h3 h4
    simp only [enforce_strict_rag_answer]
    rw [if_neg h1, if_neg h2, if_pos ⟨h3, h4⟩]
  · intro h1 h2 h3 h4
    simp only [enforce_strict_rag_answer]
    rw [if_neg h1, if_neg h2, if_neg h3, if_pos h4]
  · intro h1 h2 h3 h4
    have hno : ¬ ∃ m ∈ extract_citation_numbers (pyStrip answer),
        (m : ℤ) < 1 ∨ (m : ℤ) > n := by
      rintro ⟨m, hm, hout⟩
      rcases h4 m hm with ⟨hlo, hhi⟩
      omega
    simp only [enforce_strict_rag_answer]
    rw [if_neg h1, if_neg h2, if_neg h3, if_neg hno]

/-- Witness for C1: an answer citing `[2]` against a context of size 1 fails
with `out_of_range_citations`. -/
theorem enforce_strict_rag_answer_spec_witness :
    enforce_strict_rag_answer "See [2]." 1 true =
      ⟨false, STRICT_NO_MENTION, some "out_of_range_citations"⟩ :=
  (enforce_strict_rag_answer_spec "See [2]." 1 true (by decide)).2.2.2.1
    (by decide) (by decide)
    (by intro h; exact absurd h.2 (by decide))
    ⟨2, by decide, Or.inr (by decide)⟩

/-! ## Session store (`backend/app/session_store.py`)

Only the timing fields of `SessionState` are relevant to the claims; the
payload fields (chunks, retriever, chat history, logs) are omitted. The
`SESSIONS` dict is modeled as an association list with unique keys, and
`time.time()` enters as an explicit `now` parameter. -/

/-- Timing fields of `SessionState`. -/
structure SessionSt where
  created_at : ℚ
  last_access_at : ℚ
  expires_at : ℚ
deriving DecidableEq

/-- Model of `SessionState.touch`. -/
def SessionSt.touch (now : ℚ) (ttl_seconds : ℤ) (s : SessionSt) : SessionSt :=
  { s with last_access_at := now, expires_at := now + ttl_seconds }

/-- The session store: association list from session id to state. -/
abbrev SessionStore := List (String × SessionSt)

/-- Model of `SESSIONS.get(session_id)`. -/
def storeLookup (store : SessionStore) (sid : String) : Option SessionSt :=
  (store.find? (fun p => p.1 = sid)).map (fun p => p.2)

/-- Replace the value stored at an existing key. -/
def storeUpdate (store : SessionStore) (sid : String) (s : SessionSt) : SessionStore :=
  store.map (fun p => if p.1 = sid then (sid, s) else p)

/-- Model of `get_or_create_session`: returns the (touched) session and the
updated store. -/
def get_or_create_session (now : ℚ) (store : SessionStore) (sid : String)
    (ttl_seconds : ℤ) : SessionSt × SessionStore :=
  match storeLookup store sid with
  | some s =>
      let s2 := s.touch now ttl_seconds
      (s2, storeUpdate store sid s2)
  | none =>
      let s := SessionSt.mk now now 0
      let s2 := s.touch now ttl_seconds
      (s2, store ++ [(sid, s2)])

/-- Model of `get_session`. -/
def get_session (now : ℚ) (store : SessionStore) (sid : String)
    (ttl_seconds : ℤ) : Option SessionSt × SessionStore :=
  match storeLookup store sid with
  | some s =>
      let s2 := s.touch now ttl_seconds
      (some s2, storeUpdate store sid s2)
  | none => (none, store)

/-- Eviction condition of `cleanup_expired_sessions`: Python
`s.expires_at and s.expires_at <= now` (truthiness of a float is `≠ 0`). -/
def sessionExpired (now : ℚ) (s : SessionSt) : Prop :=
  s.expires_at ≠ 0 ∧ s.expires_at ≤ now

instance (now : ℚ) (s : SessionSt) : Decidable (sessionExpired now s) := by
  unfold sessionExpired; infer_instance

/-- Model of `cleanup_expired_sessions`: the source collects the expired ids
and pops each one; with unique keys this is a filter, returning the count of
collected ids. -/
def cleanup_expired_sessions (now : ℚ) (store : SessionStore) :
    SessionStore × ℕ :=
  ((store.filter (fun p => ¬ sessionExpired now p.2)),
    (store.filter (fun p => sessionExpired now p.2)).length)

/-- C7: `touch` (and hence `get_or_create_session` / `get_session`) at time `T`
sets `last_access_at = T` and `expires_at = T + ttl` regardless of the prior
state (resetting, not extending from creation); `cleanup_expired_sessions`
keeps exactly the sessions that are not expired (`expires_at` zero or still in
the future) and returns the number evicted; and a session touched at `T` with
`ttl = 30` is still retrievable at `T + 29` but evicted by a cleanup at
`T + 31`. -/
theorem session_store_spec (now T : ℚ) (ttl : ℤ) (s : SessionSt) (sid : String)
    (store : SessionStore) (hT : 0 ≤ T) :
    ((s.touch now ttl).last_access_at = now ∧
      (s.touch now ttl).expires_at = now + ttl) ∧
    ((get_or_create_session now store sid ttl).1.last_access_at = now ∧
      (get_or_create_session now store sid ttl).1.expires_at = now + ttl) ∧
    (∀ r, (get_session now store sid ttl).1 = some r →
      r.last_access_at = now ∧ r.expires_at = now + ttl) ∧
    (∀ p, p ∈ (cleanup_expired_sessions now store).1 ↔
      p ∈ store ∧ ¬ (p.2.expires_at ≠ 0 ∧ p.2.expires_at ≤ now)) ∧
    ((cleanup_expired_sessions now store).2 =
      (store.filter (fun p => p.2.expires_at ≠ 0 ∧ p.2.expires_at ≤ now)).length) ∧
    ((get_session (T + 29) [(sid, s.touch T 30)] sid ttl).1.isSome = true ∧
      cleanup_expired_sessions (T + 31) [(sid, s.touch T 30)] = ([], 1)) := by
  refine ⟨⟨rfl, rfl⟩, ?_, ?_, ?_, ?_, ?_⟩
  · unfold get_or_create_session
    cases storeLookup store sid <;> simp [SessionSt.touch]
  · intro r hr
    unfold get_session at hr
    cases h : storeLookup store sid with
    | none => rw [h] at hr; exact absurd hr (by simp)
    | some s0 =>
        rw [h] at hr
        simp only [Option.some.injEq] at hr
        rw [← hr]
        exact ⟨rfl, rfl⟩
  · intro p
    simp only [cleanup_expired_sessions, List.mem_filter, sessionExpired,
      decide_eq_true_eq, decide_not, Bool.not_eq_true']
    constructor
    · intro h
      refine ⟨h.1, ?_⟩
      have := of_decide_eq_false h.2
      tauto
    · intro h
      refine ⟨h.1, ?_⟩
      rw [decide_eq_false_iff_not]
      tauto
  · simp [cleanup_expired_sessions, sessionExpired]
  · constructor
    · simp [get_session, storeLookup]
    · have hexp : (s.touch T 30).expires_at = T + 30 := rfl
      have hne : (s.touch T 30).expires_at ≠ 0 := by
        rw [hexp]; intro h0; linarith
      have hle : (s.touch T 30).expires_at ≤ T + 31 := by
        rw [hexp]; linarith
      simp [cleanup_expired_sessions, sessionExpired, hne, hle]

/-- Witness for C7: instantiated at `T = 0` with a fresh session. -/
theorem session_store_spec_witness :
    ((SessionSt.mk 0 0 0).touch 5 7).last_access_at = 5 ∧
      ((SessionSt.mk 0 0 0).touch 5 7).expires_at = 5 + (7 : ℤ) :=
  (session_store_spec 5 0 7 (SessionSt.mk 0 0 0) "s" [] (by decide)).1

/-! ## Query embedding aggregation (`backend/app/main.py`, chat handler)

The chat handler aggregates the embedding rows of each query slice with
`np.mean(q_embs[sl], axis=0)`. The specification (and the repository's own
regression test `test_embedding_decay_wiring.py`) instead require a
geometrically decayed weighted mean with weight `decay^i` for row `i`. Both
aggregations are defined below; rows are rational vectors. -/

/-- Model of `np.mean(rows, axis=0)`: the componentwise arithmetic mean. -/
def npMeanRows (rows : List (List ℚ)) : List ℚ :=
  match rows with
  | [] => []
  | r0 :: _ =>
      (List.range r0.length).map
        (fun j => (rows.map (fun r => r.getD j 0)).sum / rows.length)

/-- Modelled from the spec: the decayed weighted mean that `main.py` is
supposed to use for query aggregation (the helper `_weighted_embedding_mean`
demanded by `test_embedding_decay_wiring.py` does not exist in the sources):
weight `w_i = decay^i` for row `i`, result `(Σ w_i · v_i) / (Σ w_i)`. -/
def decayedWeightedMean (decay : ℚ) (rows : List (List ℚ)) : List ℚ :=
  match rows with
  | [] => []
  | r0 :: _ =>
      let wsum : ℚ := ((List.range rows.length).map (fun i => decay ^ i)).sum
      (List.range r0.length).map
        (fun j =>
          (((List.range rows.length).zip rows).map
            (fun p => decay ^ p.1 * p.2.getD j 0)).sum / wsum)

/-- C4: at the concrete input `rows = [[1,0],[0,1]]` (instruction-formatted
row first, raw row second) with the default decay `0.7`, the chat handler's
`np.mean` aggregation yields `[1/2, 1/2]`, while the decayed weighted mean
required by the spec and by `test_embedding_decay_wiring.py` yields
`[10/17, 7/17]`; the two disagree, so the code does not implement the
specified aggregation. -/
theorem chat_aggregation_uses_plain_mean :
    npMeanRows [[1, 0], [0, 1]] = [1 / 2, 1 / 2] ∧
    decayedWeightedMean (7 / 10) [[1, 0], [0, 1]] = [10 / 17, 7 / 17] ∧
    npMeanRows [[1, 0], [0, 1]] ≠ decayedWeightedMean (7 / 10) [[1, 0], [0, 1]] := by
  refine ⟨?_, ?_, ?_⟩
  · norm_num [npMeanRows, List.range_succ]
  · norm_num [decayedWeightedMean, List.range_succ]
  · intro h
    rw [show npMeanRows [[1, 0], [0, 1]] = [1 / 2, 1 / 2] by
        norm_num [npMeanRows, List.range_succ],
      show decayedWeightedMean (7 / 10) [[1, 0], [0, 1]] = [10 / 17, 7 / 17] by
        norm_num [decayedWeightedMean, List.range_succ]] at h
    have h2 : (1 : ℚ) / 2 = 10 / 17 := by
      injection h with h1 _
    norm_num at h2

/-! ## Chunker (`backend/app/ingestion/chunker.py`)

The spacy sentencizer is an oracle parameter `sentencizer` (used only on
non-CJK text when spacy is importable, flag `spacyAvail`); the semantic
cosine distances computed by the sentence-transformers model are an oracle
parameter `distances`. The CJK sentence splitter, token estimator, buffering
loop, overlap selection and flushing are translated from the source. The
random `uuid4().hex` chunk id is omitted from the model. -/

/-- Metadata values (`dict[str, Any]`): strings from the parser, the integer
`chunk_index` added at flush time. -/
inductive MetaVal where
  | strv (v : String)
  | natv (v : ℕ)
deriving DecidableEq

/-- Python dict insertion: replace in place if the key exists, else append. -/
def dictInsert (d : List (String × MetaVal)) (k : String) (v : MetaVal) :
    List (String × MetaVal) :=
  if d.any (fun p => p.1 = k) then d.map (fun p => if p.1 = k then (k, v) else p)
  else d ++ [(k, v)]

/-- Python `dict.update`: successive insertion of all pairs. -/
def dictUpdate (d : List (String × MetaVal)) (kvs : List (String × MetaVal)) :
    List (String × MetaVal) :=
  kvs.foldl (fun d2 p => dictInsert d2 p.1 p.2) d

/-- Python dict lookup. -/
def dictLookup (d : List (String × MetaVal)) (k : String) : Option MetaVal :=
  (d.find? (fun p => p.1 = k)).map (fun p => p.2)

/-- Character class of the regex `[一-鿿]`. -/
def isCJK (c : Char) : Bool := decide (0x4e00 ≤ c.toNat ∧ c.toNat ≤ 0x9fff)

/-- Character class of the regex `[A-Za-z0-9]`. -/
def isLatinDigit (c : Char) : Bool :=
  decide ((65 ≤ c.toNat ∧ c.toNat ≤ 90) ∨ (97 ≤ c.toNat ∧ c.toNat ≤ 122) ∨
    (48 ≤ c.toNat ∧ c.toNat ≤ 57))

/-- Number of maximal runs of `[A-Za-z0-9]` characters (= number of matches
of the regex `[A-Za-z0-9]+`); the flag records whether a run is open. -/
def countLatinRuns (inRun : Bool) : List Char → ℕ
  | [] => 0
  | c :: rest =>
      if isLatinDigit c then (if inRun then 0 else 1) + countLatinRuns true rest
      else countLatinRuns false rest

/-- Model of `estimate_tokens`: CJK characters count one each, latin/digit
runs count one each. -/
def estimate_tokens (s : String) : ℕ :=
  (s.toList.filter isCJK).length + countLatinRuns false s.toList

/-- CJK sentence delimiters `。？！` and newline. -/
def isCJKDelim (c : Char) : Bool :=
  decide (c = '。' ∨ c = '？' ∨ c = '！' ∨ c = '\n')

/-- The CJK branch of `_split_sentences`: accumulate characters, and at each
delimiter flush the accumulated (stripped) sentence when non-empty; flush the
stripped remainder at the end. -/
def cjkSplitGo (current : List Char) : List Char → List String
  | [] =>
      if pyStrip (String.mk current) = "" then []
      else [pyStrip (String.mk current)]
  | c :: rest =>
      if isCJKDelim c then
        (if pyStrip (String.mk (current ++ [c])) = "" then []
          else [pyStrip (String.mk (current ++ [c]))]) ++ cjkSplitGo [] rest
      else cjkSplitGo (current ++ [c]) rest

/-- Model of `_split_sentences`: strip; CJK-dominant text goes to the CJK
splitter; otherwise the spacy sentencizer output is stripped and filtered,
with a plain split on a period-space as the import fallback. -/
def splitSentences (spacyAvail : Bool) (sentencizer : String → List String)
    (text : String) : List String :=
  let t := pyStrip text
  if t = "" then []
  else if 10 * (t.toList.filter isCJK).length > 3 * t.toList.length then
    cjkSplitGo [] t.toList
  else if spacyAvail then ((sentencizer t).map pyStrip).filter (fun s => s ≠ "")
  else ((t.splitOn ". ").map pyStrip).filter (fun s => s ≠ "")

/-- The per-sentence record built in `Chunker.chunk` (`text`, `rich`,
`metadata`, `tokens`). -/
structure Sent where
  text : String
  rich : String
  metadata : List (String × MetaVal)
  tokens : ℕ
deriving DecidableEq

/-- Model of `ParsedBlock` (the fields the chunker reads). -/
structure ParsedBlock where
  text : String
  rich_text : String
  metadata : List (String × MetaVal)
deriving DecidableEq

/-- Model of `ChunkModel` without the random `uuid4` id. -/
structure ChunkModel where
  content : String
  rich_content : String
  prev_content : Option String
  next_content : Option String
  metadata : List (String × MetaVal)
deriving DecidableEq

/-- Chunker configuration fields. -/
structure ChunkerCfg where
  target_tokens : ℤ
  overlap_tokens : ℤ
  semantic_enabled : Bool
  semantic_threshold : ℚ

/-- Python `" ".join`. -/
def pyJoin (sep : String) : List String → String
  | [] => ""
  | [x] => x
  | x :: xs => x ++ sep ++ pyJoin sep (xs)

/-- Sentence stream of `Chunker.chunk`: skip whitespace-only blocks, split
each block, attach the block metadata and the token estimate. -/
def allSentencesOf (spacyAvail : Bool) (sentencizer : String → List String)
    (blocks : List ParsedBlock) : List Sent :=
  blocks.flatMap (fun b =>
    let txt := pyStrip b.text
    if txt = "" then []
    else (splitSentences spacyAvail sentencizer txt).map
      (fun s => Sent.mk s s b.metadata (estimate_tokens s)))

/-- The loop body of `_get_overlap_sents`, walking the flushed sentences in
reverse: stop when adding the next sentence would exceed the budget and
something was already taken; otherwise take it, stopping once the budget is
reached. -/
def getOverlapGo (ot : ℤ) (acc : List Sent) (tokens : ℕ) :
    List Sent → List Sent × ℕ
  | [] => (acc, tokens)
  | s :: rest =>
      if (tokens : ℤ) + s.tokens > ot ∧ acc ≠ [] then (acc, tokens)
      else
        if ((tokens + s.tokens : ℕ) : ℤ) ≥ ot then (acc ++ [s], tokens + s.tokens)
        else getOverlapGo ot (acc ++ [s]) (tokens + s.tokens) rest

/-- Model of `_get_overlap_sents`. -/
def getOverlapSents (cfg : ChunkerCfg) (sents : List Sent) : List Sent × ℕ :=
  if cfg.overlap_tokens ≤ 0 ∨ sents = [] then ([], 0)
  else
    let p := getOverlapGo cfg.overlap_tokens [] 0 sents.reverse
    (p.1.reverse, p.2)

/-- Model of `_flush_chunk`: skip an empty buffer; join the sentence texts
with a single space, reuse the joined text as rich content, merge the
sentence metadata dicts in order and set `chunk_index` to the current number
of chunks. -/
def flushChunk (chunks : List ChunkModel) (sents : List Sent) : List ChunkModel :=
  if sents = [] then chunks
  else
    let content := pyJoin " " (sents.map (fun s => s.text))
    let combined := dictUpdate [] (sents.flatMap (fun s => s.metadata))
    chunks ++ [ChunkModel.mk content content none none
      (dictInsert combined "chunk_index" (MetaVal.natv chunks.length))]

/-- Loop state of `Chunker.chunk`: produced chunks, sentence buffer,
buffered token count. -/
structure ChunkState where
  chunks : List ChunkModel
  buffer : List Sent
  curTokens : ℕ

/-- One iteration of the grouping loop of `Chunker.chunk` over the
enumerated sentence `(i, sent)`: flush first when adding would exceed
`target_tokens` (seeding the next buffer with the overlap tail), append the
sentence, then flush again on a semantic split trigger. -/
def chunkStep (cfg : ChunkerCfg) (distances : List ℚ) (st : ChunkState)
    (p : ℕ × Sent) : ChunkState :=
  let st1 :=
    if st.buffer ≠ [] ∧ (st.curTokens : ℤ) + p.2.tokens > cfg.target_tokens then
      let ov := getOverlapSents cfg st.buffer
      ChunkState.mk (flushChunk st.chunks st.buffer) ov.1 ov.2
    else st
  let st2 := ChunkState.mk st1.chunks (st1.buffer ++ [p.2]) (st1.curTokens + p.2.tokens)
  if cfg.semantic_enabled = true ∧ p.1 < distances.length ∧
      distances.getD p.1 0 > cfg.semantic_threshold ∧ 50 < st2.curTokens then
    let ov := getOverlapSents cfg st2.buffer
    ChunkState.mk (flushChunk st2.chunks st2.buffer) ov.1 ov.2
  else st2

/-- The prev/next assignment loop at the end of `Chunker.chunk`, in
structural form: each chunk's `prev_content`/`next_content` become the
contents of its neighbours (or `none` at the ends). -/
def setNeighborsGo (prev : Option String) : List ChunkModel → List ChunkModel
  | [] => []
  | c :: rest =>
      let nxt := match rest with
        | [] => none
        | c2 :: _ => some c2.content
      ChunkModel.mk c.content c.rich_content prev nxt c.metadata ::
        setNeighborsGo (some c.content) rest

/-- Model of `Chunker.chunk`. -/
def chunkerChunk (cfg : ChunkerCfg) (spacyAvail : Bool)
    (sentencizer : String → List String) (distances : List ℚ)
    (blocks : List ParsedBlock) : List ChunkModel :=
  let allSents := allSentencesOf spacyAvail sentencizer blocks
  if allSents = [] then []
  else
    let st := allSents.enum.foldl (chunkStep cfg distances) (ChunkState.mk [] [] 0)
    let chunks := if st.buffer ≠ [] then flushChunk st.chunks st.buffer else st.chunks
    setNeighborsGo none chunks

theorem getOverlapGo_takeForm (ot : ℤ) :
    ∀ (l acc : List Sent) (t : ℕ), ∃ k,
      (getOverlapGo ot acc t l).1 = acc ++ l.take k ∧
      (getOverlapGo ot acc t l).2 = t + ((l.take k).map (fun s => s.tokens)).sum := by
  intro l
  induction l with
  | nil => intro acc t; exact ⟨0, by simp [getOverlapGo]⟩
  | cons s rest ih =>
      intro acc t
      simp only [getOverlapGo]
      by_cases h1 : (t : ℤ) + s.tokens > ot ∧ acc ≠ []
      · exact ⟨0, by rw [if_pos h1]; simp⟩
      · rw [if_neg h1]
        by_cases h2 : ((t + s.tokens : ℕ) : ℤ) ≥ ot
        · refine ⟨1, ?_⟩
          rw [if_pos h2]
          simp
        · rw [if_neg h2]
          rcases ih (acc ++ [s]) (t + s.tokens) with ⟨k, hk1, hk2⟩
          refine ⟨k + 1, ?_, ?_⟩
          · rw [hk1]; simp
          · rw [hk2]; simp [List.take_cons]; ring

theorem getOverlapGo_ne_nil (ot : ℤ) :
    ∀ (l acc : List Sent) (t : ℕ), acc ≠ [] → (getOverlapGo ot acc t l).1 ≠ [] := by
  intro l
  induction l with
  | nil => intro acc t h; simpa [getOverlapGo] using h
  | cons s rest ih =>
      intro acc t h
      simp only [getOverlapGo]
      by_cases h1 : (t : ℤ) + s.tokens > ot ∧ acc ≠ []
      · rw [if_pos h1]; exact h
      · rw [if_neg h1]
        by_cases h2 : ((t + s.tokens : ℕ) : ℤ) ≥ ot
        · rw [if_pos h2]; simp
        · rw [if_neg h2]
          exact ih (acc ++ [s]) (t + s.tokens) (by simp)

theorem getOverlapGo_le (ot : ℤ) :
    ∀ (l acc : List Sent) (t : ℕ), (t : ℤ) ≤ ot → acc ≠ [] →
      ((getOverlapGo ot acc t l).2 : ℤ) ≤ ot := by
  intro l
  induction l with
  | nil => intro acc t ht _; simpa [getOverlapGo] using ht
  | cons s rest ih =>
      intro acc t ht hacc
      simp only [getOverlapGo]
      by_cases h1 : (t : ℤ) + s.tokens > ot ∧ acc ≠ []
      · rw [if_pos h1]; exact ht
      · rw [if_neg h1]
        have h1b : ¬ ((t : ℤ) + s.tokens > ot) := by tauto
        by_cases h2 : ((t + s.tokens : ℕ) : ℤ) ≥ ot
        · rw [if_pos h2]
          push_cast
          omega
        · rw [if_neg h2]
          exact ih (acc ++ [s]) (t + s.tokens) (by push_cast; omega) (by simp)

/-- C6 (amended): the overlap seed is a suffix of the flushed sentences in
original order, its reported token count is the sum of its members' token
estimates, it is empty iff the budget is non-positive or the input is empty,
and its token count respects `overlap_tokens` except that the most recent
sentence is always taken, so a single overweight final sentence may exceed
the budget on its own. -/
theorem getOverlapSents_pos_eq (cfg : ChunkerCfg) (sents : List Sent)
    (h : ¬ (cfg.overlap_tokens ≤ 0 ∨ sents = [])) :
    getOverlapSents cfg sents =
      ((getOverlapGo cfg.overlap_tokens [] 0 sents.reverse).1.reverse,
        (getOverlapGo cfg.overlap_tokens [] 0 sents.reverse).2) := by
  unfold getOverlapSents
  rw [if_neg h]

theorem chunker_overlap_spec (cfg : ChunkerCfg) (sents : List Sent) :
    (getOverlapSents cfg sents).1 <:+ sents ∧
    (getOverlapSents cfg sents).2 =
      (((getOverlapSents cfg sents).1.map (fun s => s.tokens)).sum) ∧
    (cfg.overlap_tokens ≤ 0 ∨ sents = [] → getOverlapSents cfg sents = ([], 0)) ∧
    (0 < cfg.overlap_tokens → sents ≠ [] → (getOverlapSents cfg sents).1 ≠ []) ∧
    (0 < cfg.overlap_tokens →
      ((getOverlapSents cfg sents).2 : ℤ) ≤ cfg.overlap_tokens ∨
      ∃ s rest2, sents = rest2 ++ [s] ∧ (getOverlapSents cfg sents).1 = [s]) := by
  by_cases hz : cfg.overlap_tokens ≤ 0 ∨ sents = []
  · have hres : getOverlapSents cfg sents = ([], 0) := by
      unfold getOverlapSents
      rw [if_pos hz]
    refine ⟨?_, ?_, ?_, ?_, ?_⟩
    · rw [hres]; exact List.nil_suffix
    · rw [hres]; simp
    · intro _; exact hres
    · intro h1 h2
      rcases hz with hz | hz
      · omega
      · exact absurd hz h2
    · intro hpos
      left
      rw [hres]
      simp
      omega
  · have heq := getOverlapSents_pos_eq cfg sents hz
    push_neg at hz
    rcases hz with ⟨hpos, hne⟩
    rcases getOverlapGo_takeForm cfg.overlap_tokens sents.reverse [] 0 with ⟨k, hk1, hk2⟩
    rcases List.exists_cons_of_ne_nil
      (by simpa using hne : sents.reverse ≠ []) with ⟨s, l2, hl⟩
    refine ⟨?_, ?_, ?_, ?_, ?_⟩
    · rw [heq, hk1]
      simp only [List.nil_append]
      have h := List.reverse_suffix.mpr (List.take_prefix k sents.reverse)
      simpa using h
    · rw [heq, hk2, hk1]
      simp [List.map_reverse, List.sum_reverse]
    · intro h
      rcases h with h | h
      · omega
      · exact absurd h hne
    · intro _ _
      rw [heq]
      simp only [ne_eq, List.reverse_eq_nil_iff]
      rw [hl]
      simp only [getOverlapGo]
      rw [if_neg (by simp)]
      by_cases h2 : ((0 + s.tokens : ℕ) : ℤ) ≥ cfg.overlap_tokens
      · rw [if_pos h2]; simp
      · rw [if_neg h2]
        exact getOverlapGo_ne_nil _ _ _ _ (by simp)
    · intro _
      rw [heq]
      simp only
      rw [hl]
      simp only [getOverlapGo]
      rw [if_neg (by simp)]
      by_cases h2 : ((0 + s.tokens : ℕ) : ℤ) ≥ cfg.overlap_tokens
      · rw [if_pos h2]
        by_cases h3 : ((0 + s.tokens : ℕ) : ℤ) ≤ cfg.overlap_tokens
        · left; simpa using h3
        · right
          refine ⟨s, l2.reverse, ?_, by simp⟩
          have := congrArg List.reverse hl
          simpa using this
      · rw [if_neg h2]
        left
        refine getOverlapGo_le cfg.overlap_tokens l2 [s] (0 + s.tokens) ?_ (by simp)
        push_cast
        push_cast at h2
        omega

/-- Counterexample to C6 as stated: with `overlap_tokens = 2`, a flushed
buffer whose final sentence alone weighs 5 tokens yields an overlap seed of
cumulative weight 5, exceeding the budget. -/
theorem chunker_overlap_counterexample :
    getOverlapSents (ChunkerCfg.mk 512 2 false (1 / 2))
        [Sent.mk "国国国国国" "国国国国国" [] 5] =
      ([Sent.mk "国国国国国" "国国国国国" [] 5], 5) ∧
    ¬ (((getOverlapSents (ChunkerCfg.mk 512 2 false (1 / 2))
        [Sent.mk "国国国国国" "国国国国国" [] 5]).2 : ℤ) ≤
      (ChunkerCfg.mk 512 2 false (1 / 2)).overlap_tokens) := by
  constructor
  · decide
  · decide

theorem str_eq_empty_iff (s : String) : s = "" ↔ s.data = [] := by
  constructor
  · intro h; rw [h]
  · intro h
    cases s with
    | mk d => cases h; rfl

theorem pyJoin_ne_empty (sep : String) (x : String) (xs : List String)
    (hx : x ≠ "") : pyJoin sep (x :: xs) ≠ "" := by
  cases xs with
  | nil => simpa [pyJoin] using hx
  | cons y r =>
      intro h
      rw [str_eq_empty_iff] at h
      have hd : x.data ≠ [] := fun hh => hx ((str_eq_empty_iff x).mpr hh)
      simp only [pyJoin, String.data_append] at h
      rcases List.append_eq_nil.mp h with ⟨h1, _⟩
      rcases List.append_eq_nil.mp h1 with ⟨h2, _⟩
      exact hd h2

theorem cjkSplitGo_ne_empty :
    ∀ (l cur : List Char) (s : String), s ∈ cjkSplitGo cur l → s ≠ "" := by
  intro l
  induction l with
  | nil =>
      intro cur s hs
      simp only [cjkSplitGo] at hs
      by_cases h : pyStrip (String.mk cur) = ""
      · rw [if_pos h] at hs; exact absurd hs (by simp)
      · rw [if_neg h] at hs
        rcases List.mem_singleton.mp hs with rfl
        exact h
  | cons c rest ih =>
      intro cur s hs
      simp only [cjkSplitGo] at hs
      by_cases hc : isCJKDelim c = true
      · rw [if_pos hc] at hs
        rcases List.mem_append.mp hs with h1 | h2
        · by_cases h : pyStrip (String.mk (cur ++ [c])) = ""
          · rw [if_pos h] at h1; exact absurd h1 (by simp)
          · rw [if_neg h] at h1
            rcases List.mem_singleton.mp h1 with rfl
            exact h
        · exact ih [] s h2
      · rw [if_neg hc] at hs
        exact ih (cur ++ [c]) s hs

theorem splitSentences_ne_empty (spacyAvail : Bool)
    (sentencizer : String → List String) (text : String) :
    ∀ s ∈ splitSentences spacyAvail sentencizer text, s ≠ "" := by
  intro s hs
  simp only [splitSentences] at hs
  by_cases h0 : pyStrip text = ""
  · rw [if_pos h0] at hs; exact absurd hs (by simp)
  · rw [if_neg h0] at hs
    by_cases h1 : 10 * ((pyStrip text).toList.filter isCJK).length >
        3 * (pyStrip text).toList.length
    · rw [if_pos h1] at hs
      exact cjkSplitGo_ne_empty _ _ s hs
    · rw [if_neg h1] at hs
      by_cases h2 : spacyAvail = true
      · rw [if_pos h2] at hs
        rcases List.mem_filter.mp hs with ⟨_, hne⟩
        simpa using hne
      · rw [if_neg h2] at hs
        rcases List.mem_filter.mp hs with ⟨_, hne⟩
        simpa using hne

theorem allSentencesOf_text_ne_empty (spacyAvail : Bool)
    (sentencizer : String → List String) (blocks : List ParsedBlock) :
    ∀ s ∈ allSentencesOf spacyAvail sentencizer blocks, s.text ≠ "" := by
  intro s hs
  simp only [allSentencesOf, List.mem_flatMap] at hs
  rcases hs with ⟨b, _, hsb⟩
  by_cases h : pyStrip b.text = ""
  · rw [if_pos h] at hsb; exact absurd hsb (by simp)
  · rw [if_neg h] at hsb
    rcases List.mem_map.mp hsb with ⟨t, ht, rfl⟩
    exact splitSentences_ne_empty spacyAvail sentencizer (pyStrip b.text) t ht

theorem flushChunk_content (chunks : List ChunkModel) (sents : List Sent)
    (hs : ∀ s ∈ sents, s.text ≠ "")
    (hc : ∀ c ∈ chunks, c.content ≠ "") :
    ∀ c ∈ flushChunk chunks sents, c.content ≠ "" := by
  intro c hcm
  cases sents with
  | nil => exact hc c (by simpa [flushChunk] using hcm)
  | cons s rest =>
      simp only [flushChunk, if_neg (by simp : ¬ (s :: rest = []))] at hcm
      rcases List.mem_append.mp hcm with h1 | h2
      · exact hc c h1
      · rcases List.mem_singleton.mp h2 with rfl
        simp only
        exact pyJoin_ne_empty " " s.text (rest.map (fun s => s.text))
          (hs s (by simp))

theorem getOverlapSents_mem (cfg : ChunkerCfg) (sents : List Sent) :
    ∀ s ∈ (getOverlapSents cfg sents).1, s ∈ sents := by
  intro s hs
  exact (chunker_overlap_spec cfg sents).1.subset hs

/-- Invariant carried through the grouping loop: every buffered sentence has
non-empty text and every produced chunk has non-empty content. -/
def ChunkInv (st : ChunkState) : Prop :=
  (∀ s ∈ st.buffer, s.text ≠ "") ∧ (∀ c ∈ st.chunks, c.content ≠ "")

theorem flushState_inv (cfg : ChunkerCfg) (st : ChunkState) (t : ℕ)
    (hst : ChunkInv st) :
    ChunkInv (ChunkState.mk (flushChunk st.chunks st.buffer)
      (getOverlapSents cfg st.buffer).1 t) := by
  rcases hst with ⟨hbuf, hchunks⟩
  constructor
  · intro s hs
    exact hbuf s (getOverlapSents_mem cfg st.buffer s hs)
  · exact flushChunk_content st.chunks st.buffer hbuf hchunks

theorem appendSent_inv (chunks : List ChunkModel) (buf : List Sent)
    (t t2 : ℕ) (s : Sent) (hs : s.text ≠ "")
    (hst : ChunkInv (ChunkState.mk chunks buf t)) :
    ChunkInv (ChunkState.mk chunks (buf ++ [s]) t2) := by
  rcases hst with ⟨hbuf, hchunks⟩
  refine ⟨?_, hchunks⟩
  intro x hx
  rcases List.mem_append.mp hx with h1 | h2
  · exact hbuf x h1
  · rcases List.mem_singleton.mp h2 with rfl
    exact hs

theorem chunkStep_inv (cfg : ChunkerCfg) (distances : List ℚ) (st : ChunkState)
    (p : ℕ × Sent) (hp : p.2.text ≠ "") (hst : ChunkInv st) :
    ChunkInv (chunkStep cfg distances st p) := by
  simp only [chunkStep]
  have hst1 : ChunkInv (if st.buffer ≠ [] ∧
      (st.curTokens : ℤ) + p.2.tokens > cfg.target_tokens then
        ChunkState.mk (flushChunk st.chunks st.buffer)
          (getOverlapSents cfg st.buffer).1 (getOverlapSents cfg st.buffer).2
      else st) := by
    by_cases h1 : st.buffer ≠ [] ∧ (st.curTokens : ℤ) + p.2.tokens > cfg.target_tokens
    · rw [if_pos h1]
      exact flushState_inv cfg st _ hst
    · rw [if_neg h1]
      exact hst
  set st1 := (if st.buffer ≠ [] ∧
      (st.curTokens : ℤ) + p.2.tokens > cfg.target_tokens then
        ChunkState.mk (flushChunk st.chunks st.buffer)
          (getOverlapSents cfg st.buffer).1 (getOverlapSents cfg st.buffer).2
      else st) with hdef
  have hst2 : ChunkInv (ChunkState.mk st1.chunks (st1.buffer ++ [p.2])
      (st1.curTokens + p.2.tokens)) := by
    refine appendSent_inv st1.chunks st1.buffer st1.curTokens _ p.2 hp ?_
    rcases hst1 with ⟨a, b⟩
    exact ⟨a, b⟩
  by_cases h2 : cfg.semantic_enabled = true ∧ p.1 < distances.length ∧
      distances.getD p.1 0 > cfg.semantic_threshold ∧
      50 < st1.curTokens + p.2.tokens
  · rw [if_pos h2]
    exact flushState_inv cfg _ _ hst2
  · rw [if_neg h2]
    exact hst2

/-- C9: every chunk produced by `Chunker.chunk` has non-empty content, for
every configuration, every oracle behaviour and every block list:
whitespace-only blocks are skipped, produced sentences are stripped and
non-empty, and empty buffers are never flushed. -/
theorem chunker_content_nonempty (cfg : ChunkerCfg) (spacyAvail : Bool)
    (sentencizer : String → List String) (distances : List ℚ)
    (blocks : List ParsedBlock) :
    ∀ c ∈ chunkerChunk cfg spacyAvail sentencizer distances blocks,
      c.content ≠ "" := by
  intro c hc
  simp only [chunkerChunk] at hc
  by_cases h0 : allSentencesOf spacyAvail sentencizer blocks = []
  · rw [if_pos h0] at hc
    exact absurd hc (by simp)
  · rw [if_neg h0] at hc
    have hsent := allSentencesOf_text_ne_empty spacyAvail sentencizer blocks
    have hfold : ∀ (ps : List (ℕ × Sent)) (st : ChunkState),
        (∀ q ∈ ps, q.2.text ≠ "") → ChunkInv st →
        ChunkInv (ps.foldl (chunkStep cfg distances) st) := by
      intro ps
      induction ps with
      | nil => intro st _ h; simpa using h
      | cons q rest ih =>
          intro st hq hstep
          simp only [List.foldl_cons]
          exact ih _ (fun r hr => hq r (List.mem_cons_of_mem q hr))
            (chunkStep_inv cfg distances st q (hq q (List.mem_cons_self q rest)) hstep)
    have henum : ∀ q ∈ (allSentencesOf spacyAvail sentencizer blocks).enum,
        q.2.text ≠ "" := by
      intro q hq
      exact hsent q.2 (List.snd_mem_of_mem_enum hq)
    have hinv := hfold _ (ChunkState.mk [] [] 0) henum ⟨by simp, by simp⟩
    set st := (allSentencesOf spacyAvail sentencizer blocks).enum.foldl
      (chunkStep cfg distances) (ChunkState.mk [] [] 0) with hstdef
    have hall : ∀ c2 ∈ (if st.buffer ≠ [] then flushChunk st.chunks st.buffer
        else st.chunks), c2.content ≠ "" := by
      by_cases hb : st.buffer ≠ []
      · rw [if_pos hb]
        exact flushChunk_content st.chunks st.buffer hinv.1 hinv.2
      · rw [if_neg hb]
        exact hinv.2
    have hmemc : ∀ (l : List ChunkModel) (prev : Option String),
        (∀ c2 ∈ l, c2.content ≠ "") →
        ∀ c2 ∈ setNeighborsGo prev l, c2.content ≠ "" := by
      intro l
      induction l with
      | nil => intro prev _ c2 hc2; exact absurd hc2 (by simp [setNeighborsGo])
      | cons x rest ih =>
          intro prev hl c2 hc2
          simp only [setNeighborsGo] at hc2
          rcases List.mem_cons.mp hc2 with rfl | h2
          · exact hl x (by simp)
          · exact ih (some x.content)
              (fun y hy => hl y (List.mem_cons_of_mem x hy)) c2 h2
    exact hmemc _ none hall c hc

/-- Modelled from the amended claim: with semantic chunking disabled the
chunker greedily packs the sentence stream, flushing exactly when the buffer
is non-empty and adding the next sentence would exceed `target_tokens`, and
seeding each fresh buffer with the token-budgeted overlap tail of the flushed
one. -/
def packFixed (cfg : ChunkerCfg) (chunks : List ChunkModel) (buffer : List Sent)
    (tok : ℕ) : List Sent → List ChunkModel
  | [] => if buffer ≠ [] then flushChunk chunks buffer else chunks
  | s :: rest =>
      if buffer ≠ [] ∧ (tok : ℤ) + s.tokens > cfg.target_tokens then
        packFixed cfg (flushChunk chunks buffer)
          ((getOverlapSents cfg buffer).1 ++ [s])
          ((getOverlapSents cfg buffer).2 + s.tokens) rest
      else packFixed cfg chunks (buffer ++ [s]) (tok + s.tokens) rest

theorem packFixed_eq (cfg : ChunkerCfg) (d : List ℚ)
    (hsem : cfg.semantic_enabled = false) :
    ∀ (sents : List Sent) (j : ℕ) (chunks : List ChunkModel)
      (buffer : List Sent) (tok : ℕ),
      (if ((sents.enumFrom j).foldl (chunkStep cfg d)
            (ChunkState.mk chunks buffer tok)).buffer ≠ [] then
          flushChunk ((sents.enumFrom j).foldl (chunkStep cfg d)
            (ChunkState.mk chunks buffer tok)).chunks
            ((sents.enumFrom j).foldl (chunkStep cfg d)
              (ChunkState.mk chunks buffer tok)).buffer
        else ((sents.enumFrom j).foldl (chunkStep cfg d)
          (ChunkState.mk chunks buffer tok)).chunks)
      = packFixed cfg chunks buffer tok sents := by
  intro sents
  induction sents with
  | nil => intro j chunks buffer tok; rfl
  | cons s rest ih =>
      intro j chunks buffer tok
      have hstep : chunkStep cfg d (ChunkState.mk chunks buffer tok) (j, s) =
          (if buffer ≠ [] ∧ (tok : ℤ) + s.tokens > cfg.target_tokens then
            ChunkState.mk (flushChunk chunks buffer)
              ((getOverlapSents cfg buffer).1 ++ [s])
              ((getOverlapSents cfg buffer).2 + s.tokens)
          else ChunkState.mk chunks (buffer ++ [s]) (tok + s.tokens)) := by
        simp only [chunkStep]
        by_cases h1 : buffer ≠ [] ∧ (tok : ℤ) + s.tokens > cfg.target_tokens
        · rw [if_pos h1, if_pos h1, if_neg (by simp [hsem])]
        · rw [if_neg h1, if_neg h1, if_neg (by simp [hsem])]
      simp only [List.enumFrom, List.foldl_cons, hstep]
      by_cases h1 : buffer ≠ [] ∧ (tok : ℤ) + s.tokens > cfg.target_tokens
      · rw [if_pos h1]
        rw [show packFixed cfg chunks buffer tok (s :: rest) =
            packFixed cfg (flushChunk chunks buffer)
              ((getOverlapSents cfg buffer).1 ++ [s])
              ((getOverlapSents cfg buffer).2 + s.tokens) rest from by
          rw [packFixed, if_pos h1]]
        exact ih (j + 1) _ _ _
      · rw [if_neg h1]
        rw [show packFixed cfg chunks buffer tok (s :: rest) =
            packFixed cfg chunks (buffer ++ [s]) (tok + s.tokens) rest from by
          rw [packFixed, if_neg h1]]
        exact ih (j + 1) _ _ _

theorem dictLookup_dictInsert (d : List (String × MetaVal)) (k : String)
    (v : MetaVal) : dictLookup (dictInsert d k v) k = some v := by
  induction d with
  | nil => simp [dictInsert, dictLookup]
  | cons p rest ih =>
      simp only [dictInsert, List.any_cons]
      by_cases hp : p.1 = k
      · rw [if_pos (by simp [hp])]
        simp [dictLookup, hp]
      · by_cases hr : rest.any (fun q => q.1 = k) = true
        · rw [if_pos (by simp [hr])]
          simp only [List.map_cons]
          rw [if_neg hp]
          simp only [dictLookup, List.find?]
          rw [show (decide (p.1 = k)) = false from by simp [hp]]
          have := ih
          rw [dictInsert, if_pos hr] at this
          exact this
        · rw [if_neg (by simp [hp, hr])]
          simp only [List.cons_append]
          simp only [dictLookup, List.find?]
          rw [show (decide (p.1 = k)) = false from by simp [hp]]
          have := ih
          rw [dictInsert, if_neg (by simp [hr])] at this
          exact this

/-- Chunk-list invariant for C5: the chunk at position `i` carries
`chunk_index = i`, and rich content equals content. -/
def ChunksShape (chunks : List ChunkModel) : Prop :=
  (∀ (i : ℕ) (h : i < chunks.length),
    dictLookup (chunks[i].metadata) "chunk_index" =
      some (MetaVal.natv i)) ∧
  (∀ c ∈ chunks, c.rich_content = c.content)

theorem flushChunk_cons_eq (chunks : List ChunkModel) (sents : List Sent)
    (hs : sents ≠ []) :
    flushChunk chunks sents = chunks ++
      [ChunkModel.mk (pyJoin " " (sents.map (fun s => s.text)))
        (pyJoin " " (sents.map (fun s => s.text))) none none
        (dictInsert (dictUpdate [] (sents.flatMap (fun s => s.metadata)))
          "chunk_index" (MetaVal.natv chunks.length))] := by
  rw [flushChunk, if_neg hs]

theorem flushChunk_shape (chunks : List ChunkModel) (sents : List Sent)
    (h : ChunksShape chunks) : ChunksShape (flushChunk chunks sents) := by
  rcases h with ⟨hidx, hrich⟩
  by_cases hs : sents = []
  · rw [flushChunk, if_pos hs]
    exact ⟨hidx, hrich⟩
  · rw [flushChunk_cons_eq chunks sents hs]
    constructor
    · intro i h
      have hlen2 : i < chunks.length + 1 := by
        simpa using h
      by_cases hi : i < chunks.length
      · rw [List.getElem_append_left hi]
        exact hidx i hi
      · have hlen : i = chunks.length := by omega
        subst hlen
        rw [List.getElem_append_right (by omega)]
        simp [dictLookup_dictInsert]
    · intro c hc
      rcases List.mem_append.mp hc with h1 | h2
      · exact hrich c h1
      · rcases List.mem_singleton.mp h2 with rfl
        rfl

theorem chunkStep_shape (cfg : ChunkerCfg) (distances : List ℚ)
    (st : ChunkState) (p : ℕ × Sent) (h : ChunksShape st.chunks) :
    ChunksShape (chunkStep cfg distances st p).chunks := by
  simp only [chunkStep]
  by_cases h1 : st.buffer ≠ [] ∧ (st.curTokens : ℤ) + p.2.tokens > cfg.target_tokens
  · rw [if_pos h1]
    have h2 := flushChunk_shape st.chunks st.buffer h
    by_cases h3 : cfg.semantic_enabled = true ∧ p.1 < distances.length ∧
        distances.getD p.1 0 > cfg.semantic_threshold ∧
        50 < (getOverlapSents cfg st.buffer).2 + p.2.tokens
    · rw [if_pos h3]
      exact flushChunk_shape _ _ h2
    · rw [if_neg h3]
      exact h2
  · rw [if_neg h1]
    by_cases h3 : cfg.semantic_enabled = true ∧ p.1 < distances.length ∧
        distances.getD p.1 0 > cfg.semantic_threshold ∧
        50 < st.curTokens + p.2.tokens
    · rw [if_pos h3]
      exact flushChunk_shape _ _ h
    · rw [if_neg h3]
      exact h

theorem setNeighborsGo_proj :
    ∀ (l : List ChunkModel) (prev : Option String),
      (setNeighborsGo prev l).map
          (fun c => (c.content, c.rich_content, c.metadata)) =
        l.map (fun c => (c.content, c.rich_content, c.metadata)) := by
  intro l
  induction l with
  | nil => intro prev; rfl
  | cons c rest ih =>
      intro prev
      simp only [setNeighborsGo, List.map_cons]
      rw [ih (some c.content)]

theorem foldl_chunkStep_shape (cfg : ChunkerCfg) (distances : List ℚ) :
    ∀ (ps : List (ℕ × Sent)) (st : ChunkState), ChunksShape st.chunks →
      ChunksShape ((ps.foldl (chunkStep cfg distances) st).chunks) := by
  intro ps
  induction ps with
  | nil => intro st h; simpa using h
  | cons q rest ih =>
      intro st h
      simp only [List.foldl_cons]
      exact ih _ (chunkStep_shape cfg distances st q h)

/-- C5 (amended): with semantic chunking disabled, `Chunker.chunk` splits the
blocks into sentences and greedily packs the sentence stream per `packFixed`
(flush exactly when the buffer is non-empty and the next sentence would
exceed `target_tokens`, seeding the next buffer with the overlap tail); and
in every configuration each produced chunk carries a sequential
`chunk_index` in its metadata and rich content equal to its plain content
(which is the buffered sentence texts joined by a single space inside
`flushChunk`). -/
theorem chunker_fixed_size_spec (cfg : ChunkerCfg) (spacyAvail : Bool)
    (sentencizer : String → List String) (distances : List ℚ)
    (blocks : List ParsedBlock) :
    (cfg.semantic_enabled = false →
      chunkerChunk cfg spacyAvail sentencizer distances blocks =
        setNeighborsGo none
          (packFixed cfg [] [] 0 (allSentencesOf spacyAvail sentencizer blocks))) ∧
    ((chunkerChunk cfg spacyAvail sentencizer distances blocks).map
        (fun c => dictLookup c.metadata "chunk_index") =
      (List.range
          (chunkerChunk cfg spacyAvail sentencizer distances blocks).length).map
        (fun i => some (MetaVal.natv i))) ∧
    (∀ c ∈ chunkerChunk cfg spacyAvail sentencizer distances blocks,
      c.rich_content = c.content) := by
  set allSents := allSentencesOf spacyAvail sentencizer blocks with haS
  set stF := allSents.enum.foldl (chunkStep cfg distances)
    (ChunkState.mk [] [] 0) with hstF
  set pre : List ChunkModel :=
    (if stF.buffer ≠ [] then flushChunk stF.chunks stF.buffer else stF.chunks)
    with hpre
  have hout : chunkerChunk cfg spacyAvail sentencizer distances blocks =
      if allSents = [] then [] else setNeighborsGo none pre := by
    rw [chunkerChunk]
  have hshape : ChunksShape pre := by
    have h0 : ChunksShape (ChunkState.mk [] [] 0).chunks := by
      constructor
      · intro i h; simp at h
      · intro c hc; simp at hc
    have h1 := foldl_chunkStep_shape cfg distances allSents.enum
      (ChunkState.mk [] [] 0) h0
    rw [hpre]
    by_cases hb : stF.buffer ≠ []
    · rw [if_pos hb]
      exact flushChunk_shape _ _ h1
    · rw [if_neg hb]
      exact h1
  by_cases hnil : allSents = []
  · rw [hout, if_pos hnil]
    refine ⟨?_, by simp, by simp⟩
    intro _
    rw [hnil]
    rfl
  · rw [hout, if_neg hnil]
    set out := setNeighborsGo none pre with houtdef
    have hproj := setNeighborsGo_proj pre none
    have hlen : out.length = pre.length := by
      have := congrArg List.length hproj
      simpa using this
    refine ⟨?_, ?_, ?_⟩
    · intro hsem
      have := packFixed_eq cfg distances hsem allSents 0 [] [] 0
      rw [houtdef, hpre]
      rw [show allSents.enum = allSents.enumFrom 0 from rfl] at hstF
      rw [hstF]
      rw [this]
    · have hmapmeta : out.map (fun c => dictLookup c.metadata "chunk_index") =
          pre.map (fun c => dictLookup c.metadata "chunk_index") := by
        have h1 : out.map (fun c => dictLookup c.metadata "chunk_index") =
            (out.map (fun c => (c.content, c.rich_content, c.metadata))).map
              (fun t => dictLookup t.2.2 "chunk_index") := by
          rw [List.map_map]
          rfl
        have h2 : pre.map (fun c => dictLookup c.metadata "chunk_index") =
            (pre.map (fun c => (c.content, c.rich_content, c.metadata))).map
              (fun t => dictLookup t.2.2 "chunk_index") := by
          rw [List.map_map]
          rfl
        rw [h1, hproj, ← h2]
      rw [hmapmeta, hlen]
      refine List.ext_getElem (by simp) ?_
      intro i h1 h2
      have hi : i < pre.length := by simpa using h1
      rw [List.getElem_map, List.getElem_map, List.getElem_range]
      exact hshape.1 i hi
    · intro c hc
      have hmem : (c.content, c.rich_content, c.metadata) ∈
          pre.map (fun c => (c.content, c.rich_content, c.metadata)) := by
        rw [← hproj]
        exact List.mem_map_of_mem _ hc
      rcases List.mem_map.mp hmem with ⟨c0, hc0, heq⟩
      have h1 : c0.content = c.content := congrArg Prod.fst heq
      have h2 : c0.rich_content = c.rich_content :=
        congrArg (fun t => t.2.1) heq
      rw [← h2, ← h1]
      exact hshape.2 c0 hc0

/-- Counterexample to C5 as stated: two one-sentence CJK blocks packed into a
single chunk produce content joined with a single space, not with a blank
line as the claim (following the spec's fixed-size description) states; nor
is the buffering unit the whole block: the blocks are split into sentences
first. -/
theorem chunker_fixed_size_counterexample :
    (chunkerChunk (ChunkerCfg.mk 512 50 false (1 / 2)) true (fun _ => []) []
      [ParsedBlock.mk "你好。" "你好。" [("chapter_title", MetaVal.strv "c1")],
       ParsedBlock.mk "再见。" "再见。" []]).map (fun c => c.content) =
    ["你好。 再见。"] ∧ ("你好。 再见。" : String) ≠ "你好。\n\n再见。" := by
  constructor
  · decide
  · decide

/-- Witness for C9: one CJK block produces one chunk with non-empty content. -/
theorem chunker_content_nonempty_witness :
    ChunkModel.mk "你好。" "你好。" none none [("chunk_index", MetaVal.natv 0)] ∈
      chunkerChunk (ChunkerCfg.mk 512 50 false (1 / 2)) true (fun _ => []) []
        [ParsedBlock.mk "你好。" "你好。" []] ∧
    (ChunkModel.mk "你好。" "你好。" none none
      [("chunk_index", MetaVal.natv 0)]).content ≠ "" :=
  ⟨by decide, chunker_content_nonempty (ChunkerCfg.mk 512 50 false (1 / 2))
    true (fun _ => []) [] [ParsedBlock.mk "你好。" "你好。" []]
    (ChunkModel.mk "你好。" "你好。" none none [("chunk_index", MetaVal.natv 0)])
    (by decide)⟩

/-- Witness for C5: the amended fixed-size description instantiated on one
CJK block with semantic chunking disabled. -/
theorem chunker_fixed_size_spec_witness :
    chunkerChunk (ChunkerCfg.mk 512 50 false (1 / 2)) true (fun _ => []) []
        [ParsedBlock.mk "你好。" "你好。" []] =
      setNeighborsGo none
        (packFixed (ChunkerCfg.mk 512 50 false (1 / 2)) [] [] 0
          (allSentencesOf true (fun _ => []) [ParsedBlock.mk "你好。" "你好。" []])) :=
  (chunker_fixed_size_spec (ChunkerCfg.mk 512 50 false (1 / 2)) true
    (fun _ => []) [] [ParsedBlock.mk "你好。" "你好。" []]).1 (by decide)

/-- Witness for C6: an empty flushed buffer yields an empty overlap seed. -/
theorem chunker_overlap_spec_witness :
    getOverlapSents (ChunkerCfg.mk 512 50 false (1 / 2)) [] = ([], 0) :=
  (chunker_overlap_spec (ChunkerCfg.mk 512 50 false (1 / 2)) []).2.2.1
    (Or.inr rfl)

/-! ## Query embedding inputs (`backend/app/main.py`,
`_build_embedding_query_inputs` and the chat handler's input loop)

Python `str.format` on the instruction template is modelled for literal
text, doubled-brace escapes and the two keyword fields `task` and `query`;
any other field, stray brace or unterminated field is mapped to `none`
(the exception branch), which the source replaces with the f-string
fallback. -/

/-- The four `Settings` fields read by `_build_embedding_query_inputs`. -/
structure EmbedSettings where
  use_instruction : Bool
  include_raw : Bool
  template : String
  task : String

/-- Scanner state for the `str.format` model: literal text, just after an
opening or closing brace, or inside a replacement field. -/
inductive FmtMode where
  | lit
  | openB
  | closeB
  | field (fs : List Char)

/-- Model of `template.format(task=task, query=query)` as a left-to-right
scan: doubled braces are literals, the fields `task` and `query` substitute
the keywords, and every other field, stray closing brace or unterminated
field is an error (`none`) — Python raises Index/Key/ValueError there. -/
def pyFormatGo (task query : String) (mode : FmtMode) (acc : List Char) :
    List Char → Option (List Char)
  | [] =>
      match mode with
      | FmtMode.lit => some acc
      | _ => none
  | c :: rest =>
      match mode with
      | FmtMode.lit =>
          if c = '\x7b' then pyFormatGo task query FmtMode.openB acc rest
          else if c = '\x7d' then pyFormatGo task query FmtMode.closeB acc rest
          else pyFormatGo task query FmtMode.lit (acc ++ [c]) rest
      | FmtMode.openB =>
          if c = '\x7b' then pyFormatGo task query FmtMode.lit (acc ++ [c]) rest
          else if c = '\x7d' then none
          else pyFormatGo task query (FmtMode.field [c]) acc rest
      | FmtMode.closeB =>
          if c = '\x7d' then pyFormatGo task query FmtMode.lit (acc ++ [c]) rest
          else none
      | FmtMode.field fs =>
          if c = '\x7d' then
            if fs = "task".toList then
              pyFormatGo task query FmtMode.lit (acc ++ task.toList) rest
            else if fs = "query".toList then
              pyFormatGo task query FmtMode.lit (acc ++ query.toList) rest
            else none
          else pyFormatGo task query (FmtMode.field (fs ++ [c])) acc rest

/-- Model of `template.format(task=..., query=...)`; `none` models a raised
exception. -/
def pyFormat (template task query : String) : Option String :=
  (pyFormatGo task query FmtMode.lit [] template.toList).map String.mk

/-- The loop of `_unique_nonempty`, with the `seen` set as a list. -/
def uniqueNonemptyGo (seen : List String) : List String → List String
  | [] => []
  | raw :: rest =>
      let s := pyStrip raw
      if s = "" ∨ s ∈ seen then uniqueNonemptyGo seen rest
      else s :: uniqueNonemptyGo (s :: seen) rest

/-- Model of `_unique_nonempty`. -/
def unique_nonempty (items : List String) : List String :=
  uniqueNonemptyGo [] items

/-- Model of `_build_embedding_query_inputs`. -/
def build_embedding_query_inputs (st : EmbedSettings) (queries : List String) :
    List String :=
  let qs := unique_nonempty queries
  if qs = [] then []
  else
    let inputs : List String :=
      if st.use_instruction = true then
        qs.map (fun q =>
          match pyFormat st.template st.task q with
          | some r => r
          | none => "Instruct: " ++ st.task ++ "\n" ++ "Query:" ++ q)
      else []
    let inputs2 : List String :=
      if st.include_raw = true ∨ inputs = [] then inputs ++ qs else inputs
    unique_nonempty inputs2

/-- The `embed_inputs` accumulation of the chat handler: per-query builder
outputs concatenated (empty ones skipped by `continue`), then the stripped
HyDE passage when present; the handler raises its second `Empty message`
error exactly when this list is empty. -/
def chatEmbedInputs (st : EmbedSettings) (query_texts : List String)
    (hyde_text : String) : List String :=
  query_texts.flatMap (fun q => build_embedding_query_inputs st [q]) ++
    (if pyStrip hyde_text ≠ "" then [pyStrip hyde_text] else [])

theorem uniqueNonemptyGo_mem_ne (seen : List String) :
    ∀ (items : List String) (s : String), s ∈ uniqueNonemptyGo seen items → s ≠ "" := by
  intro items
  induction items generalizing seen with
  | nil => intro s hs; exact absurd hs (by simp [uniqueNonemptyGo])
  | cons raw rest ih =>
      intro s hs
      simp only [uniqueNonemptyGo] at hs
      by_cases h : pyStrip raw = "" ∨ pyStrip raw ∈ seen
      · rw [if_pos h] at hs
        exact ih seen s hs
      · rw [if_neg h] at hs
        rcases List.mem_cons.mp hs with rfl | h2
        · push_neg at h
          exact h.1
        · exact ih (pyStrip raw :: seen) s h2

theorem uniqueNonemptyGo_eq_nil (seen : List String) :
    ∀ items : List String, uniqueNonemptyGo seen items = [] →
      ∀ raw ∈ items, pyStrip raw = "" ∨ pyStrip raw ∈ seen := by
  intro items
  induction items generalizing seen with
  | nil => intro _ raw hraw; exact absurd hraw (by simp)
  | cons r rest ih =>
      intro hnil raw hraw
      simp only [uniqueNonemptyGo] at hnil
      by_cases h : pyStrip r = "" ∨ pyStrip r ∈ seen
      · rw [if_pos h] at hnil
        rcases List.mem_cons.mp hraw with rfl | h2
        · exact h
        · exact ih seen hnil raw h2
      · rw [if_neg h] at hnil
        exact absurd hnil (by simp)

theorem mem_dropWhile_of_not (p : α → Bool) :
    ∀ (l : List α) (c : α), c ∈ l → p c = false → c ∈ l.dropWhile p := by
  intro l
  induction l with
  | nil => intro c hc; exact absurd hc (by simp)
  | cons x rest ih =>
      intro c hc hpc
      rw [List.dropWhile_cons]
      by_cases hx : p x = true
      · rw [if_pos hx]
        rcases List.mem_cons.mp hc with rfl | h2
        · rw [hpc] at hx; exact absurd hx (by simp)
        · exact ih c h2 hpc
      · rw [if_neg hx]
        exact hc

theorem trimChars_ne_nil (l : List Char)
    (h : ∃ c ∈ l, c.isWhitespace = false) : trimChars l ≠ [] := by
  rcases h with ⟨c, hc, hcw⟩
  unfold trimChars
  have h1 : c ∈ l.dropWhile Char.isWhitespace :=
    mem_dropWhile_of_not Char.isWhitespace l c hc hcw
  have h2 : c ∈ (l.dropWhile Char.isWhitespace).reverse := by simpa using h1
  have h3 : c ∈ ((l.dropWhile Char.isWhitespace).reverse.dropWhile
      Char.isWhitespace) :=
    mem_dropWhile_of_not Char.isWhitespace _ c h2 hcw
  intro hnil
  rw [List.reverse_eq_nil_iff] at hnil
  rw [hnil] at h3
  exact absurd h3 (by simp)

theorem trimChars_has_non_ws (l : List Char) (h : trimChars l ≠ []) :
    ∃ c ∈ trimChars l, c.isWhitespace = false := by
  have hBne : (l.dropWhile Char.isWhitespace).reverse.dropWhile
      Char.isWhitespace ≠ [] := by
    intro h0
    apply h
    unfold trimChars
    rw [h0]
    rfl
  have hlen : 0 < ((l.dropWhile Char.isWhitespace).reverse.dropWhile
      Char.isWhitespace).length := List.length_pos.mpr hBne
  have hhead := List.dropWhile_get_zero_not Char.isWhitespace
    (l.dropWhile Char.isWhitespace).reverse hlen
  refine ⟨((l.dropWhile Char.isWhitespace).reverse.dropWhile
      Char.isWhitespace).get ⟨0, hlen⟩, ?_, ?_⟩
  · show _ ∈ trimChars l
    unfold trimChars
    rw [List.mem_reverse]
    exact List.get_mem _ 0 hlen
  · simpa using hhead

theorem pyStrip_preserves_ne (s : String) (h : pyStrip s ≠ "") :
    pyStrip (pyStrip s) ≠ "" := by
  have h1 : trimChars s.toList ≠ [] := by
    intro h0
    apply h
    rw [pyStrip, h0]
  rcases trimChars_has_non_ws s.toList h1 with ⟨c, hc, hcw⟩
  have h2 : (pyStrip s).toList = trimChars s.toList := rfl
  intro h0
  have h3 : trimChars (pyStrip s).toList ≠ [] := by
    apply trimChars_ne_nil
    rw [h2]
    exact ⟨c, hc, hcw⟩
  apply h3
  have := (str_eq_empty_iff (pyStrip (pyStrip s))).mp h0
  exact this

theorem uniqueNonemptyGo_mem_strip (seen : List String) :
    ∀ (items : List String) (s : String), s ∈ uniqueNonemptyGo seen items →
      ∃ raw ∈ items, s = pyStrip raw := by
  intro items
  induction items generalizing seen with
  | nil => intro s hs; exact absurd hs (by simp [uniqueNonemptyGo])
  | cons raw rest ih =>
      intro s hs
      simp only [uniqueNonemptyGo] at hs
      by_cases h : pyStrip raw = "" ∨ pyStrip raw ∈ seen
      · rw [if_pos h] at hs
        rcases ih seen s hs with ⟨r, hr, hsr⟩
        exact ⟨r, List.mem_cons_of_mem raw hr, hsr⟩
      · rw [if_neg h] at hs
        rcases List.mem_cons.mp hs with rfl | h2
        · exact ⟨raw, List.mem_cons_self raw rest, rfl⟩
        · rcases ih (pyStrip raw :: seen) s h2 with ⟨r, hr, hsr⟩
          exact ⟨r, List.mem_cons_of_mem raw hr, hsr⟩

theorem buildInputs_ne_nil_aux (st : EmbedSettings) (queries : List String)
    (hraw : st.include_raw = true ∨ st.use_instruction = false)
    (hq : ∃ q ∈ queries, pyStrip q ≠ "") :
    build_embedding_query_inputs st queries ≠ [] := by
  rcases hq with ⟨q, hqmem, hqne⟩
  have hqs : unique_nonempty queries ≠ [] := by
    intro h0
    rcases uniqueNonemptyGo_eq_nil [] queries h0 q hqmem with h | h
    · exact hqne h
    · exact absurd h (by simp)
  rcases List.exists_cons_of_ne_nil hqs with ⟨q0, qrest, hq0⟩
  have hq0mem : q0 ∈ unique_nonempty queries := by rw [hq0]; simp
  rcases uniqueNonemptyGo_mem_strip [] queries q0 hq0mem with ⟨raw, _, hq0strip⟩
  have hq0ne : q0 ≠ "" := uniqueNonemptyGo_mem_ne [] queries q0 hq0mem
  have hq0stripne : pyStrip q0 ≠ "" := by
    rw [hq0strip]
    apply pyStrip_preserves_ne
    rw [← hq0strip]
    exact hq0ne
  simp only [build_embedding_query_inputs]
  rw [if_neg hqs]
  have hcond : st.include_raw = true ∨
      (if st.use_instruction = true then
        (unique_nonempty queries).map (fun q =>
          match pyFormat st.template st.task q with
          | some r => r
          | none => "Instruct: " ++ st.task ++ "\n" ++ "Query:" ++ q)
      else []) = [] := by
    rcases hraw with h | h
    · exact Or.inl h
    · right
      rw [if_neg (by simp [h])]
  rw [if_pos hcond]
  intro h0
  have hq0in : q0 ∈ ((if st.use_instruction = true then
      (unique_nonempty queries).map (fun q =>
        match pyFormat st.template st.task q with
        | some r => r
        | none => "Instruct: " ++ st.task ++ "\n" ++ "Query:" ++ q)
    else []) ++ unique_nonempty queries) := by
    refine List.mem_append.mpr (Or.inr hq0mem)
  rcases uniqueNonemptyGo_eq_nil [] _ h0 q0 hq0in with h | h
  · exact hq0stripne h
  · exact absurd h (by simp)

/-- C10 (amended): `_build_embedding_query_inputs` returns a non-empty list
of non-empty strings for every query list containing non-whitespace content,
provided `embedding_query_include_raw` is enabled (the default) or
`embedding_query_use_instruction` is disabled; under that proviso the chat
handler's post-embedding `Empty message` branch is unreachable whenever some
query text is non-blank. Without the proviso the claim fails (see the
counterexample: an instruction-only configuration with a template that
formats to the empty string). -/
theorem build_embedding_inputs_spec (st : EmbedSettings) (queries : List String)
    (hraw : st.include_raw = true ∨ st.use_instruction = false)
    (hq : ∃ q ∈ queries, pyStrip q ≠ "") :
    build_embedding_query_inputs st queries ≠ [] ∧
    (∀ s ∈ build_embedding_query_inputs st queries, s ≠ "") ∧
    (∀ hyde : String, chatEmbedInputs st queries hyde ≠ []) := by
  refine ⟨buildInputs_ne_nil_aux st queries hraw hq, ?_, ?_⟩
  · intro s hs
    simp only [build_embedding_query_inputs] at hs
    by_cases h0 : unique_nonempty queries = []
    · rw [if_pos h0] at hs
      exact absurd hs (by simp)
    · rw [if_neg h0] at hs
      exact uniqueNonemptyGo_mem_ne [] _ s hs
  · intro hyde
    rcases hq with ⟨q, hqmem, hqne⟩
    have hbuild : build_embedding_query_inputs st [q] ≠ [] :=
      buildInputs_ne_nil_aux st [q] hraw ⟨q, by simp, hqne⟩
    rcases List.exists_cons_of_ne_nil hbuild with ⟨y, yrest, hy⟩
    have hymem : y ∈ queries.flatMap
        (fun q2 => build_embedding_query_inputs st [q2]) :=
      List.mem_flatMap.mpr ⟨q, hqmem, by rw [hy]; simp⟩
    intro h0
    rcases List.append_eq_nil.mp h0 with ⟨h1, _⟩
    rw [h1] at hymem
    exact absurd hymem (by simp)

/-- Witness for C10's amended theorem: default-style settings with raw
queries included. -/
theorem build_embedding_inputs_spec_witness :
    build_embedding_query_inputs
      (EmbedSettings.mk true true "anything" "t") ["hi"] ≠ [] :=
  (build_embedding_inputs_spec (EmbedSettings.mk true true "anything" "t")
    ["hi"] (Or.inl rfl) ⟨"hi", by decide, by decide⟩).1

/-- Counterexample to C10 as stated: with `use_instruction` on, `include_raw`
off and the empty template (which `str.format` maps to the empty string
without raising), the builder returns the empty list for the non-blank query
list `["hi"]`, and the chat handler's second `Empty message` branch becomes
reachable. -/
theorem build_embedding_inputs_counterexample :
    build_embedding_query_inputs
      (EmbedSettings.mk true false "" "t") ["hi"] = [] ∧
    pyStrip "hi" ≠ "" ∧
    chatEmbedInputs (EmbedSettings.mk true false "" "t") ["hi"] "" = [] := by
  refine ⟨by decide, by decide, by decide⟩

/-! ## LLM reranker (`backend/app/openrouter_client.py`,
`rerank_passages_yesno`)

The chat-completion round trip and JSON extraction/parsing are an oracle:
`parsed = none` models every failure (no JSON found, `json.loads` error,
payload not a dict, `ranked_ids` not a list), `parsed = some items` models a
successfully parsed `ranked_ids` list whose non-string entries are
`RankedItem.other`. -/

/-- An entry of the model-returned `ranked_ids` JSON list. -/
inductive RankedItem where
  | str (s : String)
  | other
deriving DecidableEq

/-- The filtering loop over `ranked_ids`: skip non-strings, strip, drop
duplicates and ids not among the inputs. -/
def rerankSelect (wanted : List String) (seen : List String) :
    List RankedItem → List String
  | [] => []
  | RankedItem.other :: rest => rerankSelect wanted seen rest
  | RankedItem.str rid :: rest =>
      let s := pyStrip rid
      if s ∈ seen ∨ ¬ s ∈ wanted then rerankSelect wanted seen rest
      else s :: rerankSelect wanted (s :: seen) rest

/-- Model of `rerank_passages_yesno`. -/
def rerank_passages_yesno (query : String) (passages : List (String × String))
    (parsed : Option (List RankedItem)) : List String :=
  if pyStrip query = "" ∨ passages = [] then passages.map (fun p => p.1)
  else
    match parsed with
    | none => passages.map (fun p => p.1)
    | some ranked_ids =>
        let wanted := (passages.map (fun p => pyStrip p.1)).filter (fun s => s ≠ "")
        let selected := rerankSelect wanted [] ranked_ids
        selected ++ wanted.filter (fun pid => ¬ pid ∈ selected)

theorem rerankSelect_mem (wanted : List String) :
    ∀ (ranked : List RankedItem) (seen : List String) (s : String),
      s ∈ rerankSelect wanted seen ranked → s ∈ wanted ∧ ¬ s ∈ seen := by
  intro ranked
  induction ranked with
  | nil => intro seen s hs; exact absurd hs (by simp [rerankSelect])
  | cons item rest ih =>
      intro seen s hs
      cases item with
      | other => exact ih seen s hs
      | str rid =>
          simp only [rerankSelect] at hs
          by_cases h : pyStrip rid ∈ seen ∨ ¬ pyStrip rid ∈ wanted
          · rw [if_pos h] at hs
            exact ih seen s hs
          · rw [if_neg h] at hs
            push_neg at h
            rcases List.mem_cons.mp hs with rfl | h2
            · exact ⟨h.2, h.1⟩
            · rcases ih (pyStrip rid :: seen) s h2 with ⟨h3, h4⟩
              exact ⟨h3, fun h5 => h4 (List.mem_cons_of_mem _ h5)⟩

theorem rerankSelect_nodup (wanted : List String) :
    ∀ (ranked : List RankedItem) (seen : List String),
      (rerankSelect wanted seen ranked).Nodup := by
  intro ranked
  induction ranked with
  | nil => intro seen; simp [rerankSelect]
  | cons item rest ih =>
      intro seen
      cases item with
      | other => exact ih seen
      | str rid =>
          simp only [rerankSelect]
          by_cases h : pyStrip rid ∈ seen ∨ ¬ pyStrip rid ∈ wanted
          · rw [if_pos h]
            exact ih seen
          · rw [if_neg h]
            refine List.nodup_cons.mpr ⟨?_, ih (pyStrip rid :: seen)⟩
            intro hmem
            rcases rerankSelect_mem wanted rest (pyStrip rid :: seen) _ hmem
              with ⟨_, h2⟩
            exact h2 (List.mem_cons_self _ _)

/-- C8: for a non-empty query and unique, non-blank (already stripped)
passage ids, the reranker returns a permutation of the input id list for
every parsed `ranked_ids` value: model ids outside the input set are
ignored, duplicates dropped, and omitted input ids appended in original
order; on a parse failure, or an empty query or passage list, the original
input-order id list is returned verbatim. -/
theorem rerank_passages_yesno_spec (query : String)
    (passages : List (String × String)) (parsed : Option (List RankedItem))
    (hids : ∀ p ∈ passages, pyStrip p.1 = p.1 ∧ p.1 ≠ "")
    (hnodup : (passages.map (fun p => p.1)).Nodup) :
    (rerank_passages_yesno query passages parsed).Perm
      (passages.map (fun p => p.1)) ∧
    (pyStrip query = "" ∨ passages = [] →
      rerank_passages_yesno query passages parsed =
        passages.map (fun p => p.1)) ∧
    (parsed = none →
      rerank_passages_yesno query passages parsed =
        passages.map (fun p => p.1)) := by
  have hwanted : (passages.map (fun p => pyStrip p.1)).filter (fun s => s ≠ "") =
      passages.map (fun p => p.1) := by
    have h1 : passages.map (fun p => pyStrip p.1) = passages.map (fun p => p.1) :=
      List.map_congr_left (fun p hp => (hids p hp).1)
    rw [h1]
    refine List.filter_eq_self.mpr ?_
    intro a ha
    rcases List.mem_map.mp ha with ⟨p, hp, rfl⟩
    simpa using (hids p hp).2
  refine ⟨?_, ?_, ?_⟩
  · by_cases h0 : pyStrip query = "" ∨ passages = []
    · rw [rerank_passages_yesno.eq_def, if_pos h0]
    · rw [rerank_passages_yesno.eq_def, if_neg h0]
      cases parsed with
      | none => simp
      | some ranked_ids =>
          simp only [hwanted]
          set wanted := passages.map (fun p => p.1) with hw
          set selected := rerankSelect wanted [] ranked_ids with hsel
          have hselnodup : selected.Nodup := rerankSelect_nodup wanted ranked_ids []
          have hselsub : ∀ s ∈ selected, s ∈ wanted :=
            fun s hs => (rerankSelect_mem wanted ranked_ids [] s hs).1
          have hperm1 : selected.Perm (wanted.filter (fun pid => pid ∈ selected)) := by
            refine (List.perm_ext_iff_of_nodup hselnodup
              (hnodup.filter (fun pid => decide (pid ∈ selected)))).mpr ?_
            intro a
            constructor
            · intro ha
              refine List.mem_filter.mpr ⟨hselsub a ha, by simpa using ha⟩
            · intro ha
              have := List.mem_filter.mp ha
              simpa using this.2
          have hperm2 : (wanted.filter (fun pid => pid ∈ selected) ++
              wanted.filter (fun pid => ¬ pid ∈ selected)).Perm wanted := by
            have := List.filter_append_perm
              (fun pid => decide (pid ∈ selected)) wanted
            refine List.Perm.trans ?_ this
            refine List.Perm.append (List.Perm.refl _) ?_
            refine List.Perm.of_eq ?_
            refine List.filter_congr ?_
            intro a _
            simp
          exact ((hperm1.append_right _).trans hperm2)
  · intro h0
    rw [rerank_passages_yesno.eq_def, if_pos h0]
  · intro h0
    subst h0
    by_cases h0 : pyStrip query = "" ∨ passages = []
    · rw [rerank_passages_yesno.eq_def, if_pos h0]
    · rw [rerank_passages_yesno.eq_def, if_neg h0]

/-- Witness for C8: two passages, a model ranking that lists an unknown id
and a duplicate. -/
theorem rerank_passages_yesno_spec_witness :
    (rerank_passages_yesno "q" [("a", "x"), ("b", "y")]
      (some [RankedItem.str "b", RankedItem.str "c", RankedItem.str "b"])).Perm
      ["a", "b"] :=
  (rerank_passages_yesno_spec "q" [("a", "x"), ("b", "y")]
    (some [RankedItem.str "b", RankedItem.str "c", RankedItem.str "b"])
    (by decide) (by decide)).1

/-! ## Reciprocal Rank Fusion (`backend/app/retrieval/fusion.py`, `rrf_fuse`)

Scores are exact rationals; the `defaultdict` of scores together with the
`first_rank` dict is modelled as an insertion-ordered list of entries, and
Python's `sorted` with key `(-score, first_rank, doc_id)` as `stableSort`
with the strict lexicographic key order `rrfKeyLt`. -/

/-- One fused entry: id, cumulative score, and the rank recorded at the
id's first encounter. -/
structure RrfEntry where
  docId : String
  score : ℚ
  firstRank : ℕ
deriving DecidableEq

/-- Strict sort key order of `rrf_fuse`: higher score first, then lower
first-encounter rank, then id order. -/
def rrfKeyLt (a b : RrfEntry) : Prop :=
  b.score < a.score ∨ (a.score = b.score ∧
    (a.firstRank < b.firstRank ∨ (a.firstRank = b.firstRank ∧
      pyStrLt a.docId b.docId)))

instance (a b : RrfEntry) : Decidable (rrfKeyLt a b) := by
  unfold rrfKeyLt
  infer_instance

theorem rrfKeyLt_asymm (a b : RrfEntry) : rrfKeyLt a b → ¬ rrfKeyLt b a := by
  intro h1 h2
  rcases h1 with h1 | ⟨e1, h1⟩
  · rcases h2 with h2 | ⟨e2, _⟩
    · exact absurd (h1.trans h2) (lt_irrefl _)
    · rw [e2] at h1
      exact absurd h1 (lt_irrefl _)
  · rcases h2 with h2 | ⟨e2, h2⟩
    · rw [e1] at h2
      exact absurd h2 (lt_irrefl _)
    · rcases h1 with h1 | ⟨f1, h1⟩
      · rcases h2 with h2 | ⟨f2, _⟩
        · exact absurd (h1.trans h2) (lt_irrefl _)
        · rw [f2] at h1
          exact absurd h1 (lt_irrefl _)
      · rcases h2 with h2 | ⟨f2, h2⟩
        · rw [f1] at h2
          exact absurd h2 (lt_irrefl _)
        · exact pyStrLt_asymm _ _ h1 h2

theorem rrfKeyLt_trans (a b c : RrfEntry) :
    rrfKeyLt a b → rrfKeyLt b c → rrfKeyLt a c := by
  intro h1 h2
  rcases h1 with h1 | ⟨e1, h1⟩
  · rcases h2 with h2 | ⟨e2, _⟩
    · exact Or.inl (h2.trans h1)
    · exact Or.inl (e2 ▸ h1)
  · rcases h2 with h2 | ⟨e2, h2⟩
    · exact Or.inl (by rw [e1]; exact h2)
    · refine Or.inr ⟨e1.trans e2, ?_⟩
      rcases h1 with h1 | ⟨f1, h1⟩
      · rcases h2 with h2 | ⟨f2, _⟩
        · exact Or.inl (h1.trans h2)
        · exact Or.inl (f2 ▸ h1)
      · rcases h2 with h2 | ⟨f2, h2⟩
        · exact Or.inl (by rw [f1]; exact h2)
        · exact Or.inr ⟨f1.trans f2, pyStrLt_trans _ _ _ h1 h2⟩

/-- One step of the accumulation loop over an enumerated pair
`(rank, doc_id)`: skip falsy ids; add `1/(k+rank)` to an existing entry's
score (`defaultdict` update) or append a fresh entry recording `first_rank`. -/
def bumpEntry (k : ℕ) (p : ℕ × String) (l : List RrfEntry) : List RrfEntry :=
  if p.2 = "" then l
  else if l.any (fun e => e.docId = p.2) then
    l.map (fun e =>
      if e.docId = p.2 then
        RrfEntry.mk e.docId (e.score + 1 / ((k : ℚ) + p.1)) e.firstRank
      else e)
  else l ++ [RrfEntry.mk p.2 (1 / ((k : ℚ) + p.1)) p.1]

/-- The nested loop over rankings and 1-based positions, flattened. -/
def rrfPairs (rankings : List (List String)) : List (ℕ × String) :=
  rankings.flatMap (fun r => r.enumFrom 1)

/-- The score/first-rank accumulation of `rrf_fuse`. -/
def rrfAccumulate (rankings : List (List String)) (k : ℕ) : List RrfEntry :=
  (rrfPairs rankings).foldl (fun l p => bumpEntry k p l) []

/-- Model of `rrf_fuse`; `Except.error` models the `ValueError` on `k < 1`,
and `max_results` is clamped with `max(0, ...)` as in the source. -/
def rrf_fuse (rankings : List (List String)) (k : ℕ)
    (max_results : Option ℤ) : Except String (List String) :=
  if k < 1 then Except.error "k must be >= 1"
  else if rankings = [] then Except.ok []
  else
    let fused := (stableSort rrfKeyLt (rrfAccumulate rankings k)).map
      (fun e => e.docId)
    match max_results with
    | none => Except.ok fused
    | some m => Except.ok (fused.take (max 0 m).toNat)

/-- The claim's cumulative score: the sum of `1/(k+r)` over the 1-based
positions `r` at which the id appears across the rankings. -/
def specScore (rankings : List (List String)) (k : ℕ) (d : String) : ℚ :=
  (((rrfPairs rankings).filter (fun p => p.2 = d)).map
    (fun p => 1 / ((k : ℚ) + p.1))).sum

/-- The rank recorded by the code for an id: its position at its first
encounter, scanning the rankings in order. -/
def firstEncounterRank (rankings : List (List String)) (d : String) : ℕ :=
  match (rrfPairs rankings).find? (fun p => p.2 = d) with
  | some p => p.1
  | none => 0

/-- The non-empty ids in first-encounter order. -/
def firstSeenGo (seen : List String) : List (ℕ × String) → List String
  | [] => []
  | p :: rest =>
      if p.2 = "" ∨ p.2 ∈ seen then firstSeenGo seen rest
      else p.2 :: firstSeenGo (p.2 :: seen) rest

/-- All distinct non-empty ids appearing in the rankings, in first-encounter
order. -/
def firstSeenIds (rankings : List (List String)) : List String :=
  firstSeenGo [] (rrfPairs rankings)

/-- The entry the claim associates with an id. -/
def specEntry (rankings : List (List String)) (k : ℕ) (d : String) : RrfEntry :=
  RrfEntry.mk d (specScore rankings k d) (firstEncounterRank rankings d)

/-- Truncation by the optional `max_results`, clamped to `≥ 0`. -/
def truncOpt (mr : Option ℤ) (l : List String) : List String :=
  match mr with
  | none => l
  | some m => l.take (max 0 m).toNat

/-- Cumulative score restricted to an explicit pair list. -/
def pairScore (k : ℕ) (ps : List (ℕ × String)) (d : String) : ℚ :=
  ((ps.filter (fun p => p.2 = d)).map (fun p => 1 / ((k : ℚ) + p.1))).sum

/-- First-encounter rank restricted to an explicit pair list. -/
def pairFirstRank (ps : List (ℕ × String)) (d : String) : ℕ :=
  match ps.find? (fun p => p.2 = d) with
  | some p => p.1
  | none => 0

theorem mem_firstSeenGo :
    ∀ (ps : List (ℕ × String)) (seen : List String) (d : String),
      d ∈ firstSeenGo seen ps ↔
        (d ≠ "" ∧ ¬ d ∈ seen ∧ ∃ q ∈ ps, q.2 = d) := by
  intro ps
  induction ps with
  | nil => intro seen d; simp [firstSeenGo]
  | cons p rest ih =>
      intro seen d
      simp only [firstSeenGo]
      by_cases hc : p.2 = "" ∨ p.2 ∈ seen
      · rw [if_pos hc]
        rw [ih seen d]
        constructor
        · rintro ⟨h1, h2, q, hq, hq2⟩
          exact ⟨h1, h2, q, List.mem_cons_of_mem p hq, hq2⟩
        · rintro ⟨h1, h2, q, hq, hq2⟩
          rcases List.mem_cons.mp hq with rfl | hq3
          · rcases hc with hc | hc
            · rw [hq2] at hc; exact absurd hc h1
            · rw [hq2] at hc; exact absurd hc h2
          · exact ⟨h1, h2, q, hq3, hq2⟩
      · rw [if_neg hc]
        push_neg at hc
        rw [List.mem_cons, ih (p.2 :: seen) d]
        constructor
        · rintro (rfl | ⟨h1, h2, q, hq, hq2⟩)
          · exact ⟨hc.1, hc.2, p, List.mem_cons_self p rest, rfl⟩
          · refine ⟨h1, fun h3 => h2 (List.mem_cons_of_mem _ h3),
              q, List.mem_cons_of_mem p hq, hq2⟩
        · rintro ⟨h1, h2, q, hq, hq2⟩
          by_cases hd : d = p.2
          · exact Or.inl hd
          · right
            refine ⟨h1, ?_, ?_⟩
            · intro h3
              rcases List.mem_cons.mp h3 with h4 | h4
              · exact hd h4
              · exact h2 h4
            · rcases List.mem_cons.mp hq with rfl | hq3
              · exact absurd hq2 (fun h => hd h.symm)
              · exact ⟨q, hq3, hq2⟩

theorem firstSeenGo_append :
    ∀ (ps : List (ℕ × String)) (seen : List String) (p : ℕ × String),
      firstSeenGo seen (ps ++ [p]) = firstSeenGo seen ps ++
        (if p.2 ≠ "" ∧ ¬ p.2 ∈ seen ∧ (∀ q ∈ ps, q.2 ≠ p.2) then [p.2] else []) := by
  intro ps
  induction ps with
  | nil =>
      intro seen p
      simp only [List.nil_append, firstSeenGo]
      by_cases hc : p.2 = "" ∨ p.2 ∈ seen
      · rw [if_pos hc, if_neg (by tauto)]
      · push_neg at hc
        rw [if_neg (by tauto), if_pos ⟨hc.1, hc.2, by simp⟩]
  | cons q rest ih =>
      intro seen p
      simp only [List.cons_append, firstSeenGo, List.append_eq]
      by_cases hc : q.2 = "" ∨ q.2 ∈ seen
      · rw [if_pos hc, if_pos hc, ih seen p]
        by_cases hd : p.2 = q.2
        · have hfalse1 : ¬ (p.2 ≠ "" ∧ ¬ p.2 ∈ seen ∧ ∀ r ∈ rest, r.2 ≠ p.2) := by
            rintro ⟨h1, h2, _⟩
            rcases hc with hc | hc
            · rw [← hd] at hc; exact h1 hc
            · rw [← hd] at hc; exact h2 hc
          have hfalse2 : ¬ (p.2 ≠ "" ∧ ¬ p.2 ∈ seen ∧
              ∀ r ∈ q :: rest, r.2 ≠ p.2) := by
            rintro ⟨h1, h2, _⟩
            rcases hc with hc | hc
            · rw [← hd] at hc; exact h1 hc
            · rw [← hd] at hc; exact h2 hc
          rw [if_neg hfalse1, if_neg hfalse2]
        · have hiff : (p.2 ≠ "" ∧ ¬ p.2 ∈ seen ∧ ∀ r ∈ rest, r.2 ≠ p.2) ↔
              (p.2 ≠ "" ∧ ¬ p.2 ∈ seen ∧ ∀ r ∈ q :: rest, r.2 ≠ p.2) := by
            constructor
            · rintro ⟨h1, h2, h3⟩
              refine ⟨h1, h2, ?_⟩
              intro r hr
              rcases List.mem_cons.mp hr with rfl | hr2
              · exact fun h => hd h.symm
              · exact h3 r hr2
            · rintro ⟨h1, h2, h3⟩
              exact ⟨h1, h2, fun r hr => h3 r (List.mem_cons_of_mem q hr)⟩
          by_cases hcond : p.2 ≠ "" ∧ ¬ p.2 ∈ seen ∧ ∀ r ∈ rest, r.2 ≠ p.2
          · rw [if_pos hcond, if_pos (hiff.mp hcond)]
          · rw [if_neg hcond, if_neg (fun h => hcond (hiff.mpr h))]
      · rw [if_neg hc, if_neg hc, ih (q.2 :: seen) p]
        push_neg at hc
        simp only [List.cons_append]
        congr 1
        have hiff : (p.2 ≠ "" ∧ ¬ p.2 ∈ q.2 :: seen ∧ ∀ r ∈ rest, r.2 ≠ p.2) ↔
            (p.2 ≠ "" ∧ ¬ p.2 ∈ seen ∧ ∀ r ∈ q :: rest, r.2 ≠ p.2) := by
          constructor
          · rintro ⟨h1, h2, h3⟩
            refine ⟨h1, fun h4 => h2 (List.mem_cons_of_mem _ h4), ?_⟩
            intro r hr
            rcases List.mem_cons.mp hr with rfl | hr2
            · intro h5
              exact h2 (by rw [← h5]; exact List.mem_cons_self _ _)
            · exact h3 r hr2
          · rintro ⟨h1, h2, h3⟩
            refine ⟨h1, ?_, fun r hr => h3 r (List.mem_cons_of_mem q hr)⟩
            intro h4
            rcases List.mem_cons.mp h4 with h5 | h5
            · exact h3 q (List.mem_cons_self q rest) h5.symm
            · exact h2 h5
        by_cases hcond : p.2 ≠ "" ∧ ¬ p.2 ∈ q.2 :: seen ∧ ∀ r ∈ rest, r.2 ≠ p.2
        · rw [if_pos hcond, if_pos (hiff.mp hcond)]
        · rw [if_neg hcond, if_neg (fun h => hcond (hiff.mpr h))]

theorem pairScore_append (k : ℕ) (ps : List (ℕ × String)) (p : ℕ × String)
    (d : String) :
    pairScore k (ps ++ [p]) d = pairScore k ps d +
      (if p.2 = d then 1 / ((k : ℚ) + p.1) else 0) := by
  simp only [pairScore, List.filter_append]
  by_cases h : p.2 = d
  · simp [h]
  · simp [h]

theorem pairFirstRank_append (ps : List (ℕ × String)) (p : ℕ × String)
    (d : String) :
    pairFirstRank (ps ++ [p]) d =
      if ∃ q ∈ ps, q.2 = d then pairFirstRank ps d
      else if p.2 = d then p.1 else 0 := by
  simp only [pairFirstRank, List.find?_append]
  by_cases h : ∃ q ∈ ps, q.2 = d
  · rw [if_pos h]
    have h2 : (ps.find? (fun q => decide (q.2 = d))).isSome := by
      rw [List.find?_isSome]
      rcases h with ⟨q, hq, hq2⟩
      exact ⟨q, hq, by simpa using hq2⟩
    rcases Option.isSome_iff_exists.mp h2 with ⟨q, hq⟩
    rw [hq]
    rfl
  · rw [if_neg h]
    have h2 : ps.find? (fun q => decide (q.2 = d)) = none := by
      rw [List.find?_eq_none]
      intro q hq
      simp only [decide_eq_true_eq]
      intro h3
      exact h ⟨q, hq, h3⟩
    rw [h2]
    simp only [Option.none_or]
    by_cases h3 : p.2 = d
    · rw [if_pos h3, List.find?_cons_of_pos _ (by simpa using h3)]
    · rw [if_neg h3, List.find?_cons_of_neg _ (by simpa using h3)]
      rfl

theorem rrfAccumulate_closed (k : ℕ) :
    ∀ ps : List (ℕ × String),
      ps.foldl (fun l p => bumpEntry k p l) [] =
        (firstSeenGo [] ps).map (fun d =>
          RrfEntry.mk d (pairScore k ps d) (pairFirstRank ps d)) := by
  intro ps
  induction ps using List.reverseRecOn with
  | nil => rfl
  | append_singleton ps p ih =>
      rw [List.foldl_append, List.foldl_cons, List.foldl_nil, ih,
        firstSeenGo_append ps [] p]
      by_cases hp : p.2 = ""
      · rw [show bumpEntry k p ((firstSeenGo [] ps).map (fun d =>
            RrfEntry.mk d (pairScore k ps d) (pairFirstRank ps d))) =
            (firstSeenGo [] ps).map (fun d =>
              RrfEntry.mk d (pairScore k ps d) (pairFirstRank ps d)) from by
          rw [bumpEntry, if_pos hp]]
        rw [if_neg (by tauto), List.append_nil]
        refine (List.map_congr_left ?_).symm
        intro d hd
        rcases (mem_firstSeenGo ps [] d).mp hd with ⟨hd1, _, hex⟩
        rw [pairScore_append, pairFirstRank_append,
          if_neg (by rw [hp]; exact fun h => hd1 h.symm), if_pos hex, add_zero]
      · by_cases hex : ∃ q ∈ ps, q.2 = p.2
        · have hmem : p.2 ∈ firstSeenGo [] ps :=
            (mem_firstSeenGo ps [] p.2).mpr ⟨hp, by simp, hex⟩
          have hany : ((firstSeenGo [] ps).map (fun d =>
              RrfEntry.mk d (pairScore k ps d) (pairFirstRank ps d))).any
              (fun e => e.docId = p.2) = true := by
            rw [List.any_eq_true]
            exact ⟨RrfEntry.mk p.2 (pairScore k ps p.2) (pairFirstRank ps p.2),
              List.mem_map_of_mem _ hmem, by simp⟩
          rw [bumpEntry, if_neg hp, if_pos hany,
            if_neg (by
              rintro ⟨_, _, hall⟩
              rcases hex with ⟨q, hq, hq2⟩
              exact hall q hq hq2),
            List.append_nil, List.map_map]
          refine List.map_congr_left ?_
          intro d hd
          rcases (mem_firstSeenGo ps [] d).mp hd with ⟨hd1, _, hdex⟩
          by_cases hdp : d = p.2
          · subst hdp
            simp [Function.comp, pairScore_append, pairFirstRank_append, hdex]
          · have hdp2 : ¬ p.2 = d := fun h => hdp h.symm
            simp [Function.comp, pairScore_append, pairFirstRank_append,
              hdex, hdp, hdp2]
        · have hany : ((firstSeenGo [] ps).map (fun d =>
              RrfEntry.mk d (pairScore k ps d) (pairFirstRank ps d))).any
              (fun e => e.docId = p.2) = false := by
            rw [Bool.eq_false_iff]
            intro hcon
            rw [List.any_eq_true] at hcon
            rcases hcon with ⟨e, he, he2⟩
            rcases List.mem_map.mp he with ⟨d, hd, rfl⟩
            simp only [decide_eq_true_eq] at he2
            rcases (mem_firstSeenGo ps [] d).mp hd with ⟨_, _, q, hq, hq2⟩
            exact hex ⟨q, hq, by rw [hq2]; exact he2⟩
          have hanyn : ¬ (((firstSeenGo [] ps).map (fun d =>
              RrfEntry.mk d (pairScore k ps d) (pairFirstRank ps d))).any
              (fun e => e.docId = p.2) = true) := by
            rw [hany]
            simp
          rw [bumpEntry, if_neg hp, if_neg hanyn,
            if_pos (show p.2 ≠ "" ∧ ¬ p.2 ∈ ([] : List String) ∧
                ∀ q ∈ ps, q.2 ≠ p.2 from
              ⟨hp, by simp, fun q hq hq2 => hex ⟨q, hq, hq2⟩⟩),
            List.map_append]
          congr 1
          · refine List.map_congr_left ?_
            intro d hd
            rcases (mem_firstSeenGo ps [] d).mp hd with ⟨hd1, _, hdex⟩
            have hdp2 : ¬ p.2 = d := by
              intro h
              refine hex ?_
              rcases hdex with ⟨q, hq, hq2⟩
              exact ⟨q, hq, by rw [hq2, h]⟩
            rw [pairScore_append, pairFirstRank_append, if_pos hdex,
              if_neg hdp2, add_zero]
          · simp only [List.map_cons, List.map_nil]
            have hzero : pairScore k ps p.2 = 0 := by
              rw [pairScore, List.filter_eq_nil_iff.mpr, List.map_nil, List.sum_nil]
              intro q hq
              simp only [decide_eq_true_eq]
              intro h
              exact hex ⟨q, hq, h⟩
            rw [pairScore_append, pairFirstRank_append, if_neg hex, if_pos rfl,
              if_pos rfl, hzero, zero_add]

theorem rrfAccumulate_eq_spec (rankings : List (List String)) (k : ℕ) :
    rrfAccumulate rankings k = (firstSeenIds rankings).map (specEntry rankings k) := by
  rw [rrfAccumulate, rrfAccumulate_closed]
  rfl

/-- The fused id order: the claim's entries (cumulative score and first rank
per id) sorted by descending score, then ascending first rank, then id. -/
def rrfSpecOrder (rankings : List (List String)) (k : ℕ) : List String :=
  (stableSort rrfKeyLt ((firstSeenIds rankings).map (specEntry rankings k))).map
    (fun e => e.docId)

/-- C3 (amended): for `k ≥ 1`, `rrf_fuse` returns the distinct non-empty ids
appearing in the rankings, each scored with the sum of `1/(k+r)` over the
1-based positions `r` at which it appears across the rankings, sorted by
descending cumulative score with ties broken by ascending first rank — where
the first rank is the position recorded at the id's first encounter scanning
the rankings in order (not the smallest position over all rankings) — and
remaining ties by id order; `maxResults` truncates to `max(0, maxResults)`
entries and empty rankings yield an empty result. -/
theorem rrf_fuse_spec (rankings : List (List String)) (k : ℕ) (mr : Option ℤ)
    (hk : 1 ≤ k) :
    rrf_fuse rankings k mr = Except.ok (truncOpt mr (rrfSpecOrder rankings k)) ∧
    (rrfSpecOrder rankings k).Perm (firstSeenIds rankings) ∧
    (rrfSpecOrder rankings k).Pairwise (fun a b =>
      ¬ rrfKeyLt (specEntry rankings k b) (specEntry rankings k a)) ∧
    (rankings = [] → rrf_fuse rankings k mr = Except.ok []) := by
  have hknot : ¬ k < 1 := by omega
  have hperm : (rrfSpecOrder rankings k).Perm (firstSeenIds rankings) := by
    have h1 := (stableSort_perm rrfKeyLt
      ((firstSeenIds rankings).map (specEntry rankings k))).map
      (fun e => e.docId)
    rw [rrfSpecOrder]
    refine h1.trans ?_
    rw [List.map_map]
    have h2 : ((fun e => e.docId) ∘ specEntry rankings k) = id := by
      funext d
      rfl
    rw [h2, List.map_id]
  refine ⟨?_, hperm, ?_, ?_⟩
  · by_cases hr : rankings = []
    · subst hr
      rw [rrf_fuse, if_neg hknot, if_pos rfl]
      have h0 : rrfSpecOrder [] k = [] := rfl
      rw [h0]
      cases mr with
      | none => rfl
      | some m => simp [truncOpt]
    · rw [rrf_fuse.eq_def, if_neg hknot, if_neg hr, rrfAccumulate_eq_spec]
      cases mr with
      | none => rfl
      | some m => rfl
  · have h1 := stableSort_pairwise rrfKeyLt rrfKeyLt_asymm rrfKeyLt_trans
      ((firstSeenIds rankings).map (specEntry rankings k))
    rw [rrfSpecOrder, List.pairwise_map]
    refine List.Pairwise.imp_of_mem ?_ h1
    intro e1 e2 he1 he2 hlt
    have hform : ∀ e ∈ stableSort rrfKeyLt
        ((firstSeenIds rankings).map (specEntry rankings k)),
        specEntry rankings k e.docId = e := by
      intro e he
      have hmem := (stableSort_perm rrfKeyLt _).mem_iff.mp he
      rcases List.mem_map.mp hmem with ⟨d, _, rfl⟩
      rfl
    rw [hform e1 he1, hform e2 he2]
    exact hlt
  · intro hr
    subst hr
    rw [rrf_fuse, if_neg hknot, if_pos rfl]

/-- Witness for C3's amended theorem: empty rankings fuse to the empty list. -/
theorem rrf_fuse_spec_witness : rrf_fuse [] 1 none = Except.ok [] :=
  (rrf_fuse_spec [] 1 none (by decide)).2.2.2 rfl

/-- The claim's tie-break rank: the smallest 1-based position at which the
id appears in any ranking (`10^9` when absent, as in the code's default). -/
def claimFirstRank (rankings : List (List String)) (d : String) : ℕ :=
  (((rrfPairs rankings).filter (fun p => p.2 = d)).map (fun p => p.1)).foldr
    min (10 ^ 9)

/-- Counterexample to C3 as stated: in
`rrf_fuse [["c","d","B","e","A"], ["f","A","B"]] 1`, the ids `A` and `B`
have equal cumulative score, and `A`'s smallest position in any ranking (2)
is below `B`'s (3), yet the code orders `B` before `A`: its tie-break uses
the rank recorded at the first encounter (5 for `A`, from the first
ranking), not the smallest position across all rankings. -/
theorem rrf_fuse_counterexample :
    rrf_fuse [["c", "d", "B", "e", "A"], ["f", "A", "B"]] 1 none =
      Except.ok ["c", "f", "B", "A", "d", "e"] ∧
    specScore [["c", "d", "B", "e", "A"], ["f", "A", "B"]] 1 "A" =
      specScore [["c", "d", "B", "e", "A"], ["f", "A", "B"]] 1 "B" ∧
    claimFirstRank [["c", "d", "B", "e", "A"], ["f", "A", "B"]] "A" <
      claimFirstRank [["c", "d", "B", "e", "A"], ["f", "A", "B"]] "B" := by
  refine ⟨?_, ?_, ?_⟩
  · norm_num +decide [rrf_fuse, rrfAccumulate, rrfPairs, bumpEntry, stableSort,
      insertSorted, rrfKeyLt, pyStrLt, strLtChars, List.enumFrom, List.foldl,
      List.flatMap]
  · norm_num +decide [specScore, rrfPairs, List.enumFrom, List.flatMap]
  · decide

/-! ## Hybrid retriever (`backend/app/retrieval/hybrid_retriever.py`,
`HybridRetriever.search`)

The model abstracts the score producers and keeps the score pipeline: the
per-document cosine scores of the query against the (normalized) document
embeddings enter as `cos` (FAISS `IndexFlatIP` over normalized vectors and
the MRL dot-product path both compute exactly these), and the raw BM25
scores as `bm25`. Top-`k` selection by score (`faiss.search`, `np.argsort` /
`np.argpartition`) is `argsortDesc`, deterministic on ties by ascending
index. Everything from there on — the cosine-to-`[0,1]` mapping, the BM25
pool min-max normalization `norm_bm25`, the candidate union, late fusion and
final sort — follows the source. A `ScoredChunk` holds the document index
in place of the chunk object (`self._chunks[idx]`). -/

/-- Result record of `search` (`chunk` abstracted to its index). -/
structure ScoredChunk where
  idx : ℕ
  final_score : ℚ
  vector_score : ℚ
  bm25_score_norm : ℚ
deriving DecidableEq

/-- Indices `0..n-1` sorted by strictly decreasing score, ties by ascending
index. -/
def argsortDesc (scores : List ℚ) : List ℕ :=
  stableSort (fun i j => scores.getD j 0 < scores.getD i 0 ∨
    (scores.getD i 0 = scores.getD j 0 ∧ i < j)) (List.range scores.length)

/-- Model of `np.clip(x, 0.0, 1.0)`. -/
def clip01 (x : ℚ) : ℚ := min (max x 0) 1

/-- Cosine-to-`[0,1]` conversion `np.clip((cos + 1.0) * 0.5, 0.0, 1.0)`. -/
def vecScoreOf (cos : List ℚ) (i : ℕ) : ℚ :=
  clip01 ((cos.getD i 0 + 1) * (1 / 2))

/-- `min(max(top_k, candidate_k), n_docs)`, used for both the vector and the
BM25 candidate pools. -/
def fetchK (n topK candidateK : ℕ) : ℕ := min (max topK candidateK) n

/-- Model of `np.min` on a possibly-empty array with the source's `0.0`
guard for the empty case. -/
def listMinQ : List ℚ → ℚ
  | [] => 0
  | x :: xs => xs.foldl min x

/-- Model of `np.max` with the source's `0.0` guard for the empty case. -/
def listMaxQ : List ℚ → ℚ
  | [] => 0
  | x :: xs => xs.foldl max x

/-- The BM25 candidate pool: top `fetch_k` indices by raw score. -/
def bm25PoolIdx (bm25 : List ℚ) (n topK candidateK : ℕ) : List ℕ :=
  (argsortDesc bm25).take (fetchK n topK candidateK)

/-- The pool's raw scores. -/
def bm25PoolScores (bm25 : List ℚ) (n topK candidateK : ℕ) : List ℚ :=
  (bm25PoolIdx bm25 n topK candidateK).map (fun i => bm25.getD i 0)

/-- Model of the inner `norm_bm25`: all zero when the pool max is `≤ 0`, all
one when max and min agree within `1e-12`, else linear min-max rescale. -/
def norm_bm25 (bm25 : List ℚ) (n topK candidateK : ℕ) (raw : ℚ) : ℚ :=
  let bmMin := listMinQ (bm25PoolScores bm25 n topK candidateK)
  let bmMax := listMaxQ (bm25PoolScores bm25 n topK candidateK)
  if bmMax ≤ 0 then 0
  else if |bmMax - bmMin| < 1 / 10 ^ 12 then 1
  else (raw - bmMin) / (bmMax - bmMin)

/-- Model of `HybridRetriever.search`. -/
def hybridSearch (cos bm25 : List ℚ) (topK candidateK : ℕ) (vw bw : ℚ) :
    List ScoredChunk :=
  let n := cos.length
  let vecIds := (argsortDesc cos).take (fetchK n topK candidateK)
  let bmIdx := bm25PoolIdx bm25 n topK candidateK
  let candidates := vecIds ++ bmIdx.filter (fun i => ¬ i ∈ vecIds)
  let scored := candidates.map (fun i =>
    let vs := vecScoreOf cos i
    let bn := if i ∈ bmIdx then norm_bm25 bm25 n topK candidateK (bm25.getD i 0)
      else 0
    ScoredChunk.mk i (vw * vs + bw * bn) vs bn)
  let ordered := stableSort
    (fun a b => b.final_score < a.final_score) scored
  ordered.take (min topK ordered.length)

theorem foldl_min_le_init (xs : List ℚ) : ∀ a : ℚ, xs.foldl min a ≤ a := by
  induction xs with
  | nil => intro a; simp
  | cons x rest ih =>
      intro a
      simp only [List.foldl_cons]
      exact (ih (min a x)).trans (min_le_left a x)

theorem foldl_min_le_mem (xs : List ℚ) :
    ∀ (a y : ℚ), y ∈ xs → xs.foldl min a ≤ y := by
  induction xs with
  | nil => intro a y hy; exact absurd hy (by simp)
  | cons x rest ih =>
      intro a y hy
      simp only [List.foldl_cons]
      rcases List.mem_cons.mp hy with rfl | hy2
      · exact (foldl_min_le_init rest (min a y)).trans (min_le_right a y)
      · exact ih (min a x) y hy2

theorem init_le_foldl_max (xs : List ℚ) : ∀ a : ℚ, a ≤ xs.foldl max a := by
  induction xs with
  | nil => intro a; simp
  | cons x rest ih =>
      intro a
      simp only [List.foldl_cons]
      exact (le_max_left a x).trans (ih (max a x))

theorem mem_le_foldl_max (xs : List ℚ) :
    ∀ (a y : ℚ), y ∈ xs → y ≤ xs.foldl max a := by
  induction xs with
  | nil => intro a y hy; exact absurd hy (by simp)
  | cons x rest ih =>
      intro a y hy
      simp only [List.foldl_cons]
      rcases List.mem_cons.mp hy with rfl | hy2
      · exact (le_max_right a y).trans (init_le_foldl_max rest (max a y))
      · exact ih (max a x) y hy2

theorem listMinQ_le (l : List ℚ) (y : ℚ) (hy : y ∈ l) : listMinQ l ≤ y := by
  cases l with
  | nil => exact absurd hy (by simp)
  | cons x xs =>
      rcases List.mem_cons.mp hy with rfl | hy2
      · exact foldl_min_le_init xs y
      · exact foldl_min_le_mem xs x y hy2

theorem le_listMaxQ (l : List ℚ) (y : ℚ) (hy : y ∈ l) : y ≤ listMaxQ l := by
  cases l with
  | nil => exact absurd hy (by simp)
  | cons x xs =>
      rcases List.mem_cons.mp hy with rfl | hy2
      · exact init_le_foldl_max xs y
      · exact mem_le_foldl_max xs x y hy2

theorem listMinQ_le_listMaxQ (l : List ℚ) (h : l ≠ []) :
    listMinQ l ≤ listMaxQ l := by
  cases l with
  | nil => exact absurd rfl h
  | cons x xs =>
      exact (foldl_min_le_init xs x).trans (init_le_foldl_max xs x)

theorem clip01_bounds (x : ℚ) : 0 ≤ clip01 x ∧ clip01 x ≤ 1 := by
  unfold clip01
  constructor
  · exact le_min (le_max_right x 0) (by norm_num)
  · exact min_le_right _ 1

theorem norm_bm25_bounds (bm25 : List ℚ) (n topK candidateK : ℕ) (i : ℕ)
    (hi : i ∈ bm25PoolIdx bm25 n topK candidateK) :
    0 ≤ norm_bm25 bm25 n topK candidateK (bm25.getD i 0) ∧
      norm_bm25 bm25 n topK candidateK (bm25.getD i 0) ≤ 1 := by
  have hraw : bm25.getD i 0 ∈ bm25PoolScores bm25 n topK candidateK :=
    List.mem_map_of_mem _ hi
  unfold norm_bm25
  by_cases h1 : listMaxQ (bm25PoolScores bm25 n topK candidateK) ≤ 0
  · rw [if_pos h1]
    norm_num
  · rw [if_neg h1]
    by_cases h2 : |listMaxQ (bm25PoolScores bm25 n topK candidateK) -
        listMinQ (bm25PoolScores bm25 n topK candidateK)| < 1 / 10 ^ 12
    · rw [if_pos h2]
      norm_num
    · rw [if_neg h2]
      have hne : bm25PoolScores bm25 n topK candidateK ≠ [] := by
        intro h0
        apply h1
        rw [h0]
        norm_num [listMaxQ]
      have hminmax := listMinQ_le_listMaxQ _ hne
      have hpos : 0 < listMaxQ (bm25PoolScores bm25 n topK candidateK) -
          listMinQ (bm25PoolScores bm25 n topK candidateK) := by
        rcases lt_or_eq_of_le hminmax with h3 | h3
        · linarith
        · exfalso
          apply h2
          rw [h3]
          simp
      have hlo := listMinQ_le _ _ hraw
      have hhi := le_listMaxQ _ _ hraw
      constructor
      · apply div_nonneg
        · linarith
        · linarith
      · rw [div_le_one hpos]
        linarith

theorem stableSortFinal_pairwise (l : List ScoredChunk) :
    (stableSort (fun a b => b.final_score < a.final_score) l).Pairwise
      (fun a b => b.final_score ≤ a.final_score) := by
  refine List.Pairwise.imp ?_ (stableSort_pairwise
    (fun a b : ScoredChunk => b.final_score < a.final_score)
    (fun a b h => lt_asymm h) (fun a b c ha hb => hb.trans ha) l)
  intro a b h
  exact le_of_not_lt h

/-- C2: for a built index over `N` documents and `1 ≤ topK ≤ N`, `search`
returns exactly `topK` results sorted by non-increasing `final_score`; every
returned `vector_score` and `bm25_score_norm` lies in `[0,1]`; within the
BM25 candidate pool the normalized scores are all `0` when the pool max is
`≤ 0`, all `1` when max and min agree within `1e-12`, and otherwise the
linear min-max rescale into `[0,1]`; and every result's `final_score` is
`vector_weight * vector_score + bm25_weight * bm25_score_norm`. -/
theorem hybrid_search_spec (cos bm25 : List ℚ) (topK candidateK : ℕ)
    (vw bw : ℚ) (hlen : bm25.length = cos.length)
    (hk1 : 1 ≤ topK) (hk2 : topK ≤ cos.length) :
    (hybridSearch cos bm25 topK candidateK vw bw).length = topK ∧
    (hybridSearch cos bm25 topK candidateK vw bw).Pairwise
      (fun a b => b.final_score ≤ a.final_score) ∧
    (∀ r ∈ hybridSearch cos bm25 topK candidateK vw bw,
      0 ≤ r.vector_score ∧ r.vector_score ≤ 1 ∧
      0 ≤ r.bm25_score_norm ∧ r.bm25_score_norm ≤ 1 ∧
      r.final_score = vw * r.vector_score + bw * r.bm25_score_norm) ∧
    (listMaxQ (bm25PoolScores bm25 cos.length topK candidateK) ≤ 0 →
      ∀ raw, norm_bm25 bm25 cos.length topK candidateK raw = 0) ∧
    (¬ listMaxQ (bm25PoolScores bm25 cos.length topK candidateK) ≤ 0 →
      |listMaxQ (bm25PoolScores bm25 cos.length topK candidateK) -
        listMinQ (bm25PoolScores bm25 cos.length topK candidateK)| < 1 / 10 ^ 12 →
      ∀ raw, norm_bm25 bm25 cos.length topK candidateK raw = 1) ∧
    (¬ listMaxQ (bm25PoolScores bm25 cos.length topK candidateK) ≤ 0 →
      ¬ |listMaxQ (bm25PoolScores bm25 cos.length topK candidateK) -
        listMinQ (bm25PoolScores bm25 cos.length topK candidateK)| < 1 / 10 ^ 12 →
      ∀ i ∈ bm25PoolIdx bm25 cos.length topK candidateK,
        norm_bm25 bm25 cos.length topK candidateK (bm25.getD i 0) =
          (bm25.getD i 0 -
            listMinQ (bm25PoolScores bm25 cos.length topK candidateK)) /
          (listMaxQ (bm25PoolScores bm25 cos.length topK candidateK) -
            listMinQ (bm25PoolScores bm25 cos.length topK candidateK)) ∧
        0 ≤ norm_bm25 bm25 cos.length topK candidateK (bm25.getD i 0) ∧
        norm_bm25 bm25 cos.length topK candidateK (bm25.getD i 0) ≤ 1) := by
  have hfetchK : topK ≤ fetchK cos.length topK candidateK :=
    le_min (le_max_left topK candidateK) hk2
  have hfetchK2 : fetchK cos.length topK candidateK ≤ cos.length :=
    min_le_right _ _
  have hargLen : (argsortDesc cos).length = cos.length := by
    rw [argsortDesc, length_stableSort, List.length_range]
  have hvecLen : ((argsortDesc cos).take (fetchK cos.length topK candidateK)).length =
      fetchK cos.length topK candidateK := by
    rw [List.length_take, hargLen]
    omega
  have hordLen : ∀ l : List ScoredChunk,
      (stableSort (fun a b => b.final_score < a.final_score) l).length = l.length :=
    fun l => length_stableSort _ l
  refine ⟨?_, ?_, ?_, ?_, ?_, ?_⟩
  · show (hybridSearch cos bm25 topK candidateK vw bw).length = topK
    rw [hybridSearch]
    simp only [List.length_take, hordLen, List.length_map, List.length_append]
    rw [hargLen]
    omega
  · rw [hybridSearch]
    exact List.Pairwise.sublist (List.take_sublist _ _)
      (stableSortFinal_pairwise _)
  · intro r hr
    rw [hybridSearch] at hr
    have hr2 := List.take_subset _ _ hr
    have hr3 := (stableSort_perm (fun a b : ScoredChunk =>
      b.final_score < a.final_score) _).mem_iff.mp hr2
    rcases List.mem_map.mp hr3 with ⟨i, hi, rfl⟩
    simp only
    rcases clip01_bounds ((cos.getD i 0 + 1) * (1 / 2)) with ⟨hc1, hc2⟩
    by_cases hbm : i ∈ bm25PoolIdx bm25 cos.length topK candidateK
    · rw [if_pos hbm]
      rcases norm_bm25_bounds bm25 cos.length topK candidateK i hbm with ⟨hb1, hb2⟩
      exact ⟨hc1, hc2, hb1, hb2, trivial⟩
    · rw [if_neg hbm]
      exact ⟨hc1, hc2, le_refl 0, by norm_num, trivial⟩
  · intro h raw
    simp only [norm_bm25]
    rw [if_pos h]
  · intro h1 h2 raw
    simp only [norm_bm25]
    rw [if_neg h1, if_pos h2]
  · intro h1 h2 i hi
    refine ⟨?_, norm_bm25_bounds bm25 cos.length topK candidateK i hi⟩
    simp only [norm_bm25]
    rw [if_neg h1, if_neg h2]

/-- Witness for C2: a one-document index searched with `topK = 1`. -/
theorem hybrid_search_spec_witness :
    (hybridSearch [0] [0] 1 50 1 0).length = 1 :=
  (hybrid_search_spec [0] [0] 1 50 1 0 (by decide) (by decide) (by decide)).1
